import Mathlib

/-!
# Verification of the clinical-note extraction backend (`backend/main.py`)

This file gives a shallow embedding of the pure logic of the service:

* byte-level text extraction (`_read_txt`, `extract_text_from_upload`),
* the code-fence stripping applied to the model reply,
* the JSON record normalizer (`postprocess` and its helpers
  `_null_if_placeholder`, `_title`),
* the control flow of the `POST /extract` endpoint.

Strings are modelled as `List Char`, bytes as `List Nat`, JSON values as the
inductive `JVal`, and parsed JSON objects as association lists
`List (String × JVal)` (Python dicts with insertion order, as produced by
`json.loads`).  Fallible Python code (attribute errors on duck-typed values,
`TypeError` on non-iterables) is modelled with `Except String`.  External
collaborators (the PDF and DOCX readers, the inference API, `json.loads`) are
parameters of the endpoint model.  Python's `\s` / `str.strip()` whitespace is
modelled by the six ASCII whitespace characters; `str.upper` / `str.lower` are
modelled on the ASCII range, which covers every character class the
normalizer's rules distinguish.
-/

set_option maxRecDepth 4000

/-- ASCII whitespace, the characters matched by Python's `\s` on the inputs in
scope: space, tab, newline, carriage return, vertical tab, form feed. -/
def pyIsSpace (c : Char) : Bool :=
  c.toNat = 32 || c.toNat = 9 || c.toNat = 10 || c.toNat = 13 ||
  c.toNat = 11 || c.toNat = 12

/-- Uppercase ASCII letter, the character class `[A-Z]` of the placeholder
regular expression. -/
def isUpperAZ (c : Char) : Bool :=
  65 ≤ c.toNat && c.toNat ≤ 90

/-- ASCII lowering of one character (Python `str.lower`, ASCII range). -/
def pyToLower (c : Char) : Char :=
  if 65 ≤ c.toNat ∧ c.toNat ≤ 90 then Char.ofNat (c.toNat + 32) else c

/-- ASCII raising of one character (Python `str.upper`, ASCII range). -/
def pyToUpper (c : Char) : Char :=
  if 97 ≤ c.toNat ∧ c.toNat ≤ 122 then Char.ofNat (c.toNat - 32) else c

/-- Python `str.lower` on a whole string. -/
def pyLower (l : List Char) : List Char := l.map pyToLower

/-- Drop the leading whitespace of a character list. -/
def dropWS : List Char → List Char
  | [] => []
  | c :: cs => if pyIsSpace c then dropWS cs else c :: cs

/-- Drop the trailing whitespace of a character list. -/
def stripRight (l : List Char) : List Char :=
  (dropWS l.reverse).reverse

/-- Python `str.strip()`: drop leading and trailing whitespace. -/
def pyStrip (l : List Char) : List Char :=
  stripRight (dropWS l)

/-- One pass of `re.sub(r"\s+", " ", ·)`: the flag records whether the
previous character was whitespace (in which case further whitespace is
swallowed into the single substituted space). -/
def collapseAux : Bool → List Char → List Char
  | _, [] => []
  | prevWS, c :: cs =>
    if pyIsSpace c then
      if prevWS then collapseAux true cs else ' ' :: collapseAux true cs
    else c :: collapseAux false cs

/-- `re.sub(r"\s+", " ", l)`: replace each maximal whitespace run by one
space. -/
def pyCollapse (l : List Char) : List Char := collapseAux false l

/-- Drop leading copies of a specific character (one side of Python's
`str.strip("`")`). -/
def dropCh (x : Char) : List Char → List Char
  | [] => []
  | c :: cs => if c = x then dropCh x cs else c :: cs

/-- Python `str.strip(x)` for a single-character argument: drop copies of `x`
from both ends. -/
def stripCh (x : Char) (l : List Char) : List Char :=
  (dropCh x (dropCh x l).reverse).reverse

/-- Splitting a string into its maximal whitespace-free words (accumulator
form; the accumulator holds the current word reversed). -/
def wordsAcc (acc : List Char) : List Char → List (List Char)
  | [] => if acc.isEmpty then [] else [acc.reverse]
  | c :: cs =>
    if pyIsSpace c then
      if acc.isEmpty then wordsAcc [] cs else acc.reverse :: wordsAcc [] cs
    else wordsAcc (c :: acc) cs

/-- The whitespace-separated words of a string. -/
def words (l : List Char) : List (List Char) := wordsAcc [] l

/-- Join words with single spaces. -/
def joinWords : List (List Char) → List Char
  | [] => []
  | [w] => w
  | w :: ws => w ++ ' ' :: joinWords ws

/-- Does `needle` occur as a contiguous substring of `hay`?  (Python's
`needle in hay` on strings.) -/
def containsSub (needle : List Char) : List Char → Bool
  | [] => needle.isEmpty
  | c :: t => needle.isPrefixOf (c :: t) || containsSub needle t

/-! ## The JSON data model -/

/-- A parsed JSON value, as handed to the normalizer by `json.loads`.
Numbers are modelled by `Int`; none of the normalizer's rules distinguish
numeric values beyond their truthiness. -/
inductive JVal where
  | null
  | bool (b : Bool)
  | num (n : Int)
  | str (s : List Char)
  | arr (elems : List JVal)
  | obj (fields : List (String × JVal))

/-- Python truthiness of a JSON value (`None`, `False`, `0`, `""`, `[]`, `{ }`
are falsy). -/
def pyTruthy : JVal → Bool
  | .null => false
  | .bool b => b
  | .num n => n != 0
  | .str s => !s.isEmpty
  | .arr xs => !xs.isEmpty
  | .obj fs => !fs.isEmpty

/-- `d.get(k)` on a Python dict modelled as an association list: the value of
the first binding of `k`, or `None` (here `none`) when absent. -/
def jget (fs : List (String × JVal)) (k : String) : Option JVal :=
  match fs with
  | [] => none
  | (k', v) :: rest => if k' = k then some v else jget rest k

/-- `d[k] = v` on a Python dict: replace the (first) binding of `k` in place,
or append a new binding at the end when `k` is absent. -/
def jset (fs : List (String × JVal)) (k : String) (v : JVal) :
    List (String × JVal) :=
  match fs with
  | [] => [(k, v)]
  | (k', v') :: rest => if k' = k then (k, v) :: rest else (k', v') :: jset rest k v

/-- `d.get(k) or default`: the stored value when present and truthy, otherwise
the default. -/
def pyOr (v : Option JVal) (d : JVal) : JVal :=
  match v with
  | some x => if pyTruthy x then x else d
  | none => d

/-- `d.get(k) or None`: the stored value when present and truthy, otherwise
`None`. -/
def pyOrNull (v : Option JVal) : JVal :=
  match v with
  | some x => if pyTruthy x then x else .null
  | none => .null

/-- Python iteration `for x in v`: lists yield their elements, strings yield
their one-character substrings, dicts yield their keys; other values raise
`TypeError`. -/
def pyIter : JVal → Except String (List JVal)
  | .arr xs => .ok xs
  | .str s => .ok (s.map fun c => .str [c])
  | .obj fs => .ok (fs.map fun kv => .str kv.fst.data)
  | _ => .error "TypeError"

/-! ## The placeholder matcher

`_null_if_placeholder` tests `re.fullmatch(r"\s*(\[[A-Z]+\]\s*)+", s.strip())`.
The regular expression is a DFA; `runP` runs it.  State meaning:
`expectOpen` — before the first token, an opening bracket is required;
`expectUpper` — just after `[`, at least one uppercase letter is required;
`inUpper` — inside the `[A-Z]+` run; `afterTok` — at least one complete
token has been read (the accepting region, tolerating trailing whitespace). -/

inductive PState where
  | expectOpen
  | expectUpper
  | inUpper
  | afterTok

/-- Run the placeholder DFA. -/
def runP : PState → List Char → Bool
  | .afterTok, [] => true
  | _, [] => false
  | .expectOpen, c :: cs => if c = '[' then runP .expectUpper cs else false
  | .expectUpper, c :: cs => if isUpperAZ c then runP .inUpper cs else false
  | .inUpper, c :: cs =>
    if isUpperAZ c then runP .inUpper cs
    else if c = ']' then runP .afterTok cs else false
  | .afterTok, c :: cs =>
    if pyIsSpace c then runP .afterTok cs
    else if c = '[' then runP .expectUpper cs else false

/-- `re.fullmatch(r"\s*(\[[A-Z]+\]\s*)+", s.strip()) is not None`. -/
def placeholderMatch (s : List Char) : Bool :=
  runP .expectOpen (dropWS (pyStrip s))

/-! ## The normalizer (`postprocess` and helpers) -/

/-- `_null_if_placeholder(s)` where `s` is `data.get("name")`: falsy values
become `None`; a string matching the placeholder pattern becomes `None`;
any other string is stripped; a truthy non-string raises `AttributeError`
at `s.strip()`. -/
def null_if_placeholder (v : Option JVal) : Except String JVal :=
  match v with
  | none => .ok .null
  | some w =>
    if pyTruthy w then
      match w with
      | .str s =>
        if placeholderMatch s then .ok .null else .ok (.str (pyStrip s))
      | _ => .error "AttributeError"
    else .ok .null

/-- `_title(s)`: uppercase the first character only, leave the rest
unchanged. -/
def pyTitle : List Char → List Char
  | [] => []
  | c :: cs => pyToUpper c :: cs

/-- `bool(str(x).strip())`, the filter of the `mental_illnesses`
comprehension.  For a string it asks for a nonempty strip; `str(x)` of any
non-string JSON value (`None`, `True`, a number, a list, a dict) is never
empty nor whitespace-only, so non-strings always pass. -/
def pyStrNonempty : JVal → Bool
  | .str s => !(pyStrip s).isEmpty
  | _ => true

/-- The `mental_illnesses` comprehension
`[_title(x.strip()) for x in mi if str(x).strip()]`: kept entries must
support `.strip()`, so a kept non-string raises `AttributeError`. -/
def cleanMI : List JVal → Except String (List JVal)
  | [] => .ok []
  | x :: rest =>
    if pyStrNonempty x then
      match x with
      | .str s => do
        let r ← cleanMI rest
        .ok (.str (pyTitle (pyStrip s)) :: r)
      | _ => .error "AttributeError"
    else cleanMI rest

/-- The `medications_taken` loop: skip non-dict entries; read
`(m.get("name") or "").strip()` (raising `AttributeError` when the name is a
truthy non-string); drop entries whose stripped name is empty; rebuild kept
entries with exactly six fields, name lowercased, falsy optional fields
defaulted to `None`. -/
def cleanMeds : List JVal → Except String (List JVal)
  | [] => .ok []
  | m :: rest =>
    match m with
    | .obj fs =>
      (match pyOr (jget fs "name") (.str []) with
       | .str s =>
         if (pyStrip s).isEmpty then cleanMeds rest
         else do
           let r ← cleanMeds rest
           .ok (.obj [("name", .str (pyLower (pyStrip s))),
                      ("dose", pyOrNull (jget fs "dose")),
                      ("route", pyOrNull (jget fs "route")),
                      ("frequency", pyOrNull (jget fs "frequency")),
                      ("duration", pyOrNull (jget fs "duration")),
                      ("reason", pyOrNull (jget fs "reason"))] :: r)
       | _ => .error "AttributeError")
    | _ => cleanMeds rest

/-- The `diagnoses` loop: skip non-dict entries; read
`(d.get("label") or "").strip()`; drop empty labels; rebuild kept entries
with label `_title`-cased and falsy `code` / `priority` defaulted to
`None`. -/
def cleanDx : List JVal → Except String (List JVal)
  | [] => .ok []
  | d :: rest =>
    match d with
    | .obj fs =>
      (match pyOr (jget fs "label") (.str []) with
       | .str s =>
         if (pyStrip s).isEmpty then cleanDx rest
         else do
           let r ← cleanDx rest
           .ok (.obj [("label", .str (pyTitle (pyStrip s))),
                      ("code", pyOrNull (jget fs "code")),
                      ("priority", pyOrNull (jget fs "priority"))] :: r)
       | _ => .error "AttributeError")
    | _ => cleanDx rest

/-- A list field read as `data.get(k) or []` followed by iteration. -/
def listField (v : Option JVal) : Except String (List JVal) :=
  pyIter (pyOr v (.arr []))

/-- `(data.get("past_history") or "").strip()` followed by whitespace
collapapsing; a truthy non-string raises `AttributeError` at `.strip()`. -/
def cleanPH (v : Option JVal) : Except String (List Char) :=
  match pyOr v (.str []) with
  | .str s => .ok (pyCollapse (pyStrip s))
  | _ => .error "AttributeError"

/-- `postprocess(data)`: the five field rewrites of the normalizer, applied
in source order (name, mental_illnesses, medications_taken, past_history,
diagnoses), each one a dict store on the incoming mapping. -/
def postprocess (data : List (String × JVal)) :
    Except String (List (String × JVal)) := do
  let nm ← null_if_placeholder (jget data "name")
  let d1 := jset data "name" nm
  let mi0 ← listField (jget d1 "mental_illnesses")
  let mi ← cleanMI mi0
  let d2 := jset d1 "mental_illnesses" (.arr mi)
  let med0 ← listField (jget d2 "medications_taken")
  let meds ← cleanMeds med0
  let d3 := jset d2 "medications_taken" (.arr meds)
  let ph ← cleanPH (jget d3 "past_history")
  let d4 := jset d3 "past_history" (.str ph)
  let dx0 ← listField (jget d4 "diagnoses")
  let dxs ← cleanDx dx0
  .ok (jset d4 "diagnoses" (.arr dxs))

/-! ## Text extraction -/

/-- The state of the UTF-8 decoding automaton: `start`, or inside a
multi-byte sequence with `k` continuation bytes still expected, the scalar
value accumulated so far, and the admissible range `[lo, hi]` for the next
byte (the first continuation byte is range-restricted to rule out overlong
encodings, surrogates, and values above `0x10FFFF`, exactly as Python's
strict UTF-8 decoder does). -/
inductive UState where
  | start
  | need (k acc lo hi : Nat)

/-- The lead-byte transition of the UTF-8 automaton. -/
def startTrans (b : Nat) : Option Char × UState :=
  if b < 128 then (some (Char.ofNat b), .start)
  else if b < 194 then (none, .start)
  else if b < 224 then (none, .need 1 (b - 192) 128 191)
  else if b = 224 then (none, .need 2 0 160 191)
  else if b = 237 then (none, .need 2 13 128 159)
  else if b < 240 then (none, .need 2 (b - 224) 128 191)
  else if b = 240 then (none, .need 3 0 144 191)
  else if b < 244 then (none, .need 3 (b - 240) 128 191)
  else if b = 244 then (none, .need 3 4 128 143)
  else (none, .start)

/-- One byte-step of the UTF-8 automaton.  A byte outside the admissible
continuation range aborts the pending sequence (the undecodable bytes are
ignored) and is reprocessed as a lead byte, which is how Python's
`errors="ignore"` resynchronizes. -/
def utf8Trans (st : UState) (b : Nat) : Option Char × UState :=
  match st with
  | .start => startTrans b
  | .need k acc lo hi =>
    if lo ≤ b ∧ b ≤ hi then
      if k = 1 then (some (Char.ofNat (acc * 64 + (b - 128))), .start)
      else (none, .need (k - 1) (acc * 64 + (b - 128)) 128 191)
    else startTrans b

/-- Run the UTF-8 automaton over a byte list; a sequence truncated by the
end of input is dropped. -/
def decodeLoop : UState → List Nat → List Char
  | _, [] => []
  | st, b :: rest =>
    match utf8Trans st b with
    | (some c, st2) => c :: decodeLoop st2 rest
    | (none, st2) => decodeLoop st2 rest

/-- `raw.decode("utf-8", errors="ignore")`: decode UTF-8, skipping over
undecodable bytes instead of failing. -/
def decodeIgnore (l : List Nat) : List Char := decodeLoop .start l

/-- The UTF-8 encoding of one character. -/
def encodeChar (c : Char) : List Nat :=
  let n := c.toNat
  if n < 128 then [n]
  else if n < 2048 then [192 + n / 64, 128 + n % 64]
  else if n < 65536 then
    [224 + n / 4096, 128 + n / 64 % 64, 128 + n % 64]
  else
    [240 + n / 262144, 128 + n / 4096 % 64, 128 + n / 64 % 64, 128 + n % 64]

/-- The UTF-8 encoding of a string. -/
def utf8Encode (l : List Char) : List Nat :=
  (l.map encodeChar).flatten

/-- `_read_txt(raw)`. -/
def read_txt (raw : List Nat) : List Char := decodeIgnore raw

/-- Python `x or ""` on an optional string. -/
def orEmpty (v : Option (List Char)) : List Char := v.getD []

/-- Does `l` end with `suf`?  (Python `str.endswith`.) -/
def endsW (l suf : List Char) : Bool := suf.isSuffixOf l

/-- `extract_text_from_upload(file, raw)`: dispatch on the lowercased
filename and declared content type.  The PDF and DOCX readers are external
libraries, taken as parameters. -/
def extract_text_from_upload (readPdf readDocx : List Nat → List Char)
    (fname ctype : Option (List Char)) (raw : List Nat) : List Char :=
  let nm := pyLower (orEmpty fname)
  let ct := pyLower (orEmpty ctype)
  if endsW nm ".pdf".data || containsSub "pdf".data ct then readPdf raw
  else if endsW nm ".docx".data ||
      containsSub "officedocument.wordprocessingml.document".data ct then
    readDocx raw
  else read_txt raw

/-! ## Response parsing and the endpoint -/

/-- The backtick character. -/
def btick : Char := Char.ofNat 96

/-- The opening of a fenced code block: three backticks. -/
def fenceMarker : List Char := [btick, btick, btick]

/-- The fence-stripping step applied to the raw model reply: strip
whitespace; when the text starts with a triple backtick, strip all backticks
from both ends, strip whitespace again, and remove a leading
case-insensitive `json` language tag. -/
def fenceStrip (reply : List Char) : List Char :=
  let content := pyStrip reply
  if fenceMarker.isPrefixOf content then
    let c2 := pyStrip (stripCh btick content)
    if "json".data.isPrefixOf (pyLower c2) then pyStrip (c2.drop 4) else c2
  else content

/-- Wrap a text in the fence of the claim: triple backtick, `json` tag,
newline, the text, newline, closing triple backtick. -/
def fenceWrap (j : List Char) : List Char :=
  fenceMarker ++ "json".data ++ '\n' :: j ++ '\n' :: fenceMarker

/-- The outcome of one `POST /extract` request: a normalized record, or an
HTTP error with status code and detail message. -/
inductive ExtractResult where
  | ok (record : List (String × JVal))
  | httpError (status : Nat) (detail : List Char)

/-- The `extract_patient_data` endpoint.  External effects are parameters:
the two document readers, the inference call (`Except` models the caught
network/API exceptions), and `json.loads` (`Except` models
`json.JSONDecodeError`).  A non-dict parse result or a normalizer error is
an exception inside the `try` block, surfaced as the generic 500. -/
def extract_patient_data (readPdf readDocx : List Nat → List Char)
    (infer : List Char → Except (List Char) (List Char))
    (jsonLoads : List Char → Except (List Char) JVal)
    (fname ctype : Option (List Char)) (raw : List Nat) : ExtractResult :=
  if raw.isEmpty then .httpError 400 "Uploaded file is empty.".data
  else
    let text := pyStrip (extract_text_from_upload readPdf readDocx fname ctype raw)
    if text.isEmpty then .httpError 400 "Could not read text from the file.".data
    else
      match infer text with
      | .error e => .httpError 500 ("Extraction failed: ".data ++ e)
      | .ok reply =>
        let content := fenceStrip reply
        match jsonLoads content with
        | .error e =>
          .httpError 500 ("Model did not return valid JSON: ".data ++ e ++
            "; content_sample=".data ++ content.take 800)
        | .ok (.obj fields) =>
          match postprocess fields with
          | .ok out => .ok out
          | .error e => .httpError 500 ("Extraction failed: ".data ++ e.data)
        | .ok _ => .httpError 500 ("Extraction failed: ".data ++ "AttributeError".data)

/-! ## Specification-side definitions

These definitions follow the words of the specification and of the claims
(not the code); the theorems below compare the code-derived definitions
against them. -/

/-- A single redaction placeholder token: a bracketed nonempty run of
uppercase letters, e.g. `[PATIENT]`. -/
def IsBracketTok (t : List Char) : Prop :=
  ∃ u, u ≠ [] ∧ (∀ c ∈ u, isUpperAZ c = true) ∧ t = '[' :: u ++ [']']

/-- A run of whitespace characters (possibly empty). -/
def AllWS (w : List Char) : Prop := ∀ c ∈ w, pyIsSpace c = true

/-- One or more placeholder tokens, optionally separated (and followed) by
whitespace. -/
inductive TokSeq : List Char → Prop where
  | last (t w : List Char) : IsBracketTok t → AllWS w → TokSeq (t ++ w)
  | cons (t w rest : List Char) :
      IsBracketTok t → AllWS w → TokSeq rest → TokSeq (t ++ w ++ rest)

/-- The claim's notion of a redacted name: after trimming, the string
consists solely of one or more bracketed all-uppercase tokens, optionally
separated by whitespace. -/
def SpecRedacted (s : List Char) : Prop := TokSeq (pyStrip s)

/-- The claim's description of one `medications_taken` entry: non-dict
entries and entries whose name is not a nonempty-after-trim string are
dropped; a kept entry has exactly the six fields, name trimmed and
lowercased, optional fields kept when truthy and `null` otherwise. -/
def medSpecEntry (v : JVal) : Option JVal :=
  match v with
  | .obj fs =>
    (match pyOr (jget fs "name") (.str []) with
     | .str s =>
       if (pyStrip s).isEmpty then none
       else some (.obj [("name", .str (pyLower (pyStrip s))),
                        ("dose", pyOrNull (jget fs "dose")),
                        ("route", pyOrNull (jget fs "route")),
                        ("frequency", pyOrNull (jget fs "frequency")),
                        ("duration", pyOrNull (jget fs "duration")),
                        ("reason", pyOrNull (jget fs "reason"))])
     | _ => none)
  | _ => none

/-- The claim's description of one `diagnoses` entry. -/
def dxSpecEntry (v : JVal) : Option JVal :=
  match v with
  | .obj fs =>
    (match pyOr (jget fs "label") (.str []) with
     | .str s =>
       if (pyStrip s).isEmpty then none
       else some (.obj [("label", .str (pyTitle (pyStrip s))),
                        ("code", pyOrNull (jget fs "code")),
                        ("priority", pyOrNull (jget fs "priority"))])
     | _ => none)
  | _ => none

/-- Well-formedness of a normalized medication entry, per the claim: an
object with exactly the six fields in order, whose name is a nonempty
lowercase-stable string. -/
def medWF : JVal → Bool
  | .obj fs =>
    fs.map Prod.fst == ["name", "dose", "route", "frequency", "duration", "reason"] &&
    (match jget fs "name" with
     | some (.str s) => !s.isEmpty && s == pyLower s
     | _ => false)
  | _ => false

/-- Well-formedness of a normalized diagnosis entry, per the claim: an
object with exactly the fields label, code, priority in order, whose label is
a nonempty string with its first character uppercase-stable. -/
def dxWF : JVal → Bool
  | .obj fs =>
    fs.map Prod.fst == ["label", "code", "priority"] &&
    (match jget fs "label" with
     | some (.str s) => !s.isEmpty && s == pyTitle s
     | _ => false)
  | _ => false

/-! ## Character-level lemmas -/

theorem char_toNat_ofNat (n : Nat) (h : Nat.isValidChar n) :
    (Char.ofNat n).toNat = n := by
  simp only [Char.ofNat, dif_pos h, Char.ofNatAux, Char.toNat, UInt32.toNat]
  rfl

theorem toNat_pyToUpper (c : Char) :
    (pyToUpper c).toNat =
      if 97 ≤ c.toNat ∧ c.toNat ≤ 122 then c.toNat - 32 else c.toNat := by
  unfold pyToUpper
  split
  · next h => exact char_toNat_ofNat _ (Or.inl (by omega))
  · rfl

theorem toNat_pyToLower (c : Char) :
    (pyToLower c).toNat =
      if 65 ≤ c.toNat ∧ c.toNat ≤ 90 then c.toNat + 32 else c.toNat := by
  unfold pyToLower
  split
  · next h => exact char_toNat_ofNat _ (Or.inl (by omega))
  · rfl

theorem char_eq_of_toNat {c d : Char} (h : c.toNat = d.toNat) : c = d :=
  Char.ext (UInt32.ext h)

theorem pyToUpper_eq_self (c : Char) (h : ¬(97 ≤ c.toNat ∧ c.toNat ≤ 122)) :
    pyToUpper c = c := by
  unfold pyToUpper
  exact if_neg h

theorem pyToLower_eq_self (c : Char) (h : ¬(65 ≤ c.toNat ∧ c.toNat ≤ 90)) :
    pyToLower c = c := by
  unfold pyToLower
  exact if_neg h

theorem pyToUpper_idem (c : Char) : pyToUpper (pyToUpper c) = pyToUpper c := by
  by_cases h : 97 ≤ c.toNat ∧ c.toNat ≤ 122
  · apply pyToUpper_eq_self
    rw [toNat_pyToUpper, if_pos h]
    omega
  · rw [pyToUpper_eq_self c h]
    exact pyToUpper_eq_self c h

theorem pyToLower_idem (c : Char) : pyToLower (pyToLower c) = pyToLower c := by
  by_cases h : 65 ≤ c.toNat ∧ c.toNat ≤ 90
  · apply pyToLower_eq_self
    rw [toNat_pyToLower, if_pos h]
    omega
  · rw [pyToLower_eq_self c h]
    exact pyToLower_eq_self c h

theorem pyLower_idem (l : List Char) : pyLower (pyLower l) = pyLower l := by
  simp only [pyLower, List.map_map]
  exact List.map_congr_left fun c _ => pyToLower_idem c

theorem pyIsSpace_iff (c : Char) :
    pyIsSpace c = true ↔
      (c.toNat = 32 ∨ c.toNat = 9 ∨ c.toNat = 10 ∨ c.toNat = 13 ∨
       c.toNat = 11 ∨ c.toNat = 12) := by
  simp only [pyIsSpace, Bool.or_eq_true, decide_eq_true_eq]
  tauto

theorem pyIsSpace_pyToUpper (c : Char) : pyIsSpace (pyToUpper c) = pyIsSpace c := by
  rw [Bool.eq_iff_iff, pyIsSpace_iff, pyIsSpace_iff, toNat_pyToUpper]
  split <;> omega

theorem pyIsSpace_pyToLower (c : Char) : pyIsSpace (pyToLower c) = pyIsSpace c := by
  rw [Bool.eq_iff_iff, pyIsSpace_iff, pyIsSpace_iff, toNat_pyToLower]
  split <;> omega

/-! ## Whitespace-stripping lemmas -/

@[simp] theorem dropWS_nil : dropWS [] = [] := rfl

theorem dropWS_cons (c : Char) (l : List Char) :
    dropWS (c :: l) = if pyIsSpace c then dropWS l else c :: l := rfl

theorem dropWS_append (a b : List Char) :
    dropWS (a ++ b) = if dropWS a = [] then dropWS b else dropWS a ++ b := by
  induction a with
  | nil => simp
  | cons c cs ih =>
    by_cases h : pyIsSpace c
    · simpa [dropWS_cons, h] using ih
    · simp [dropWS_cons, h]

theorem dropWS_eq_nil (l : List Char) :
    dropWS l = [] ↔ ∀ c ∈ l, pyIsSpace c = true := by
  induction l with
  | nil => simp
  | cons c cs ih =>
    by_cases h : pyIsSpace c <;> simp [dropWS_cons, h, ih]

theorem dropWS_idem (l : List Char) : dropWS (dropWS l) = dropWS l := by
  induction l with
  | nil => rfl
  | cons c cs ih =>
    by_cases h : pyIsSpace c <;> simp [dropWS_cons, h, ih]

@[simp] theorem stripRight_nil : stripRight [] = [] := rfl

theorem stripRight_eq_nil (l : List Char) :
    stripRight l = [] ↔ ∀ c ∈ l, pyIsSpace c = true := by
  unfold stripRight
  rw [List.reverse_eq_nil_iff, dropWS_eq_nil]
  constructor
  · intro h c hc
    exact h c (List.mem_reverse.mpr hc)
  · intro h c hc
    exact h c (List.mem_reverse.mp hc)

theorem stripRight_append (a b : List Char) :
    stripRight (a ++ b) =
      if stripRight b = [] then stripRight a else a ++ stripRight b := by
  unfold stripRight
  rw [List.reverse_append, dropWS_append]
  by_cases h : dropWS b.reverse = []
  · simp [h]
  · rw [if_neg h, if_neg (by simp [h]), List.reverse_append, List.reverse_reverse]

theorem stripRight_single (c : Char) :
    stripRight [c] = if pyIsSpace c then [] else [c] := by
  by_cases h : pyIsSpace c <;> simp [stripRight, dropWS_cons, h]

theorem stripRight_cons (c : Char) (l : List Char) :
    stripRight (c :: l) =
      if stripRight l = [] then (if pyIsSpace c then [] else [c])
      else c :: stripRight l := by
  have h1 : c :: l = [c] ++ l := rfl
  rw [h1, stripRight_append]
  by_cases h : stripRight l = [] <;> simp [h, stripRight_single]

theorem stripRight_idem (l : List Char) :
    stripRight (stripRight l) = stripRight l := by
  simp [stripRight, List.reverse_reverse, dropWS_idem]

theorem dropWS_stripRight (l : List Char) :
    dropWS (stripRight l) = stripRight (dropWS l) := by
  induction l with
  | nil => rfl
  | cons c cs ih =>
    rw [stripRight_cons]
    by_cases hnil : stripRight cs = []
    · have hcs : dropWS cs = [] := by
        rw [dropWS_eq_nil]
        exact (stripRight_eq_nil cs).mp hnil
      by_cases hws : pyIsSpace c
      · simp [hnil, hws, dropWS_cons, hcs]
      · simp [hnil, hws, dropWS_cons, hcs, stripRight_cons, stripRight_single]
    · by_cases hws : pyIsSpace c
      · rw [if_neg hnil, dropWS_cons, if_pos hws, dropWS_cons, if_pos hws, ih]
      · rw [if_neg hnil, dropWS_cons, if_neg (by simp [hws]), dropWS_cons,
          if_neg (by simp [hws]), stripRight_cons, if_neg hnil]

theorem pyStrip_idem (l : List Char) : pyStrip (pyStrip l) = pyStrip l := by
  unfold pyStrip
  rw [dropWS_stripRight, dropWS_idem, stripRight_idem]

theorem dropWS_pyStrip (l : List Char) : dropWS (pyStrip l) = pyStrip l := by
  unfold pyStrip
  rw [dropWS_stripRight, dropWS_idem]

theorem stripRight_pyStrip (l : List Char) : stripRight (pyStrip l) = pyStrip l := by
  unfold pyStrip
  rw [stripRight_idem]

theorem pyStrip_eq_nil (l : List Char) :
    pyStrip l = [] ↔ ∀ c ∈ l, pyIsSpace c = true := by
  unfold pyStrip
  rw [stripRight_eq_nil]
  induction l with
  | nil => simp
  | cons c cs ih =>
    by_cases h : pyIsSpace c <;> simp [dropWS_cons, h, ih]

/-! ## Word-splitting and whitespace-collapsing lemmas -/

theorem length_dropWhile {α : Type} (p : α → Bool) (l : List α) :
    (l.dropWhile p).length ≤ l.length := by
  induction l with
  | nil => simp
  | cons c cs ih =>
    rw [List.dropWhile_cons]
    split
    · exact Nat.le_trans ih (by simp)
    · simp

theorem dropWhile_head {α : Type} (p : α → Bool) (l : List α) (x : α) (xs : List α)
    (h : l.dropWhile p = x :: xs) : p x = false := by
  induction l with
  | nil => simp at h
  | cons c cs ih =>
    rw [List.dropWhile_cons] at h
    by_cases hc : p c
    · rw [if_pos hc] at h
      exact ih h
    · rw [if_neg hc] at h
      cases h
      simpa using hc

theorem wordsAcc_acc (cs : List Char) :
    ∀ acc, acc ≠ [] →
      wordsAcc acc cs =
        (acc.reverse ++ cs.takeWhile (fun c => !pyIsSpace c)) ::
          words (cs.dropWhile (fun c => !pyIsSpace c)) := by
  induction cs with
  | nil =>
    intro acc h
    simp [wordsAcc, h, words]
  | cons c cs ih =>
    intro acc h
    by_cases hws : pyIsSpace c
    · simp only [wordsAcc, List.isEmpty_eq_true, h, if_false, hws, if_true,
        List.takeWhile_cons, List.dropWhile_cons, Bool.not_true]
      simp only [words, wordsAcc, hws, if_true, List.isEmpty_nil]
      simp
    · rw [show wordsAcc acc (c :: cs) = wordsAcc (c :: acc) cs by
        simp [wordsAcc, hws]]
      rw [ih (c :: acc) (by simp)]
      simp [hws]

theorem words_cons_ws {c : Char} (cs : List Char) (h : pyIsSpace c = true) :
    words (c :: cs) = words cs := by
  simp [words, wordsAcc, h]

theorem words_cons_nonws {c : Char} (cs : List Char) (h : pyIsSpace c = false) :
    words (c :: cs) =
      (c :: cs.takeWhile (fun c => !pyIsSpace c)) ::
        words (cs.dropWhile (fun c => !pyIsSpace c)) := by
  rw [show words (c :: cs) = wordsAcc [c] cs by simp [words, wordsAcc, h]]
  rw [wordsAcc_acc cs [c] (by simp)]
  simp

theorem words_eq_nil (l : List Char) :
    words l = [] ↔ ∀ c ∈ l, pyIsSpace c = true := by
  induction l with
  | nil => simp [words, wordsAcc]
  | cons c cs ih =>
    by_cases h : pyIsSpace c
    · simp [words_cons_ws cs h, h, ih]
    · simp [words_cons_nonws cs (by simpa using h), h]

theorem words_wf : ∀ (n : Nat) (l : List Char), l.length ≤ n →
    ∀ w ∈ words l, w ≠ [] ∧ ∀ c ∈ w, pyIsSpace c = false := by
  intro n
  induction n with
  | zero =>
    intro l hl
    have : l = [] := by cases l <;> simp_all
    subst this
    simp [words, wordsAcc]
  | succ n ih =>
    intro l hl
    match l with
    | [] => simp [words, wordsAcc]
    | c :: cs =>
      by_cases h : pyIsSpace c
      · rw [words_cons_ws cs h]
        exact ih cs (by simp at hl; omega)
      · rw [words_cons_nonws cs (by simpa using h)]
        intro w hw
        rcases List.mem_cons.mp hw with rfl | hw'
        · refine ⟨by simp, ?_⟩
          intro x hx
          rcases List.mem_cons.mp hx with rfl | hx'
          · simpa using h
          · simpa using List.mem_takeWhile_imp hx'
        · refine ih _ ?_ w hw'
          have h1 := length_dropWhile (fun c => !pyIsSpace c) cs
          simp at hl
          omega

theorem joinWords_cons (w : List Char) (ws : List (List Char)) :
    joinWords (w :: ws) = if ws = [] then w else w ++ ' ' :: joinWords ws := by
  cases ws <;> rfl

@[simp] theorem collapseAux_nil (b : Bool) : collapseAux b [] = [] := rfl

theorem collapseAux_cons (b : Bool) (c : Char) (l : List Char) :
    collapseAux b (c :: l) =
      if pyIsSpace c then
        (if b then collapseAux true l else ' ' :: collapseAux true l)
      else c :: collapseAux false l := rfl

theorem collapseAux_cons_nonws {c : Char} (b : Bool) (l : List Char)
    (h : pyIsSpace c = false) : collapseAux b (c :: l) = c :: collapseAux false l := by
  rw [collapseAux_cons, if_neg (by simp [h])]

theorem collapseAux_true (l : List Char) :
    collapseAux true l = collapseAux false (dropWS l) := by
  induction l with
  | nil => rfl
  | cons c cs ih =>
    by_cases h : pyIsSpace c <;> simp [collapseAux, dropWS_cons, h, ih]

theorem collapse_nonws_prefix (w r : List Char)
    (hw : ∀ c ∈ w, pyIsSpace c = false) :
    collapseAux false (w ++ r) = w ++ collapseAux false r := by
  induction w with
  | nil => simp
  | cons c cs ih =>
    have hc : pyIsSpace c = false := hw c (by simp)
    rw [List.cons_append, collapseAux_cons_nonws false _ hc,
      ih fun x hx => hw x (by simp [hx]), List.cons_append]

theorem stripRight_nonws (w : List Char) (hw : ∀ c ∈ w, pyIsSpace c = false) :
    stripRight w = w := by
  induction w with
  | nil => rfl
  | cons c cs ih =>
    rw [stripRight_cons, ih fun x hx => hw x (by simp [hx])]
    by_cases hnil : cs = []
    · subst hnil
      simp [hw c (by simp)]
    · rw [if_neg hnil]

theorem collapse_strip_words : ∀ (n : Nat) (l : List Char), l.length ≤ n →
    pyCollapse (pyStrip l) = joinWords (words l) := by
  intro n
  induction n with
  | zero =>
    intro l hl
    have : l = [] := by cases l <;> simp_all
    subst this
    rfl
  | succ n ih =>
    intro l hl
    match l with
    | [] => rfl
    | c :: cs =>
      by_cases h : pyIsSpace c
      · have h1 : pyStrip (c :: cs) = pyStrip cs := by
          unfold pyStrip
          rw [dropWS_cons, if_pos h]
        rw [h1, words_cons_ws cs h]
        exact ih cs (by simp at hl; omega)
      · have hb : pyIsSpace c = false := by simpa using h
        have hstrip : pyStrip (c :: cs) = stripRight (c :: cs) := by
          unfold pyStrip
          rw [dropWS_cons, if_neg h]
        have hdecomp : c :: cs =
            (c :: cs.takeWhile (fun c => !pyIsSpace c)) ++
              cs.dropWhile (fun c => !pyIsSpace c) := by
          simp [List.takeWhile_append_dropWhile]
        have hw : ∀ x ∈ c :: cs.takeWhile (fun c => !pyIsSpace c),
            pyIsSpace x = false := by
          intro x hx
          rcases List.mem_cons.mp hx with rfl | hx'
          · exact hb
          · simpa using List.mem_takeWhile_imp hx'
        rw [words_cons_nonws cs hb]
        by_cases hr : stripRight (cs.dropWhile (fun c => !pyIsSpace c)) = []
        · have hwr : words (cs.dropWhile (fun c => !pyIsSpace c)) = [] :=
            (words_eq_nil _).mpr ((stripRight_eq_nil _).mp hr)
          rw [hwr, joinWords_cons, if_pos rfl]
          rw [hstrip, hdecomp, stripRight_append, if_pos hr, stripRight_nonws _ hw]
          unfold pyCollapse
          have h2 := collapse_nonws_prefix (c :: cs.takeWhile (fun c => !pyIsSpace c)) [] hw
          simpa using h2
        · obtain ⟨s, r', hr'⟩ :
            ∃ s r', cs.dropWhile (fun c => !pyIsSpace c) = s :: r' := by
            rcases hrr : cs.dropWhile (fun c => !pyIsSpace c) with _ | ⟨s, r'⟩
            · rw [hrr] at hr
              simp at hr
            · exact ⟨s, r', rfl⟩
          have hs : pyIsSpace s = true := by
            have := dropWhile_head (fun c => !pyIsSpace c) cs s r' hr'
            simpa using this
          rw [hr'] at hr
          have hsr' : stripRight r' ≠ [] := by
            intro h0
            apply hr
            rw [stripRight_cons, if_pos h0, if_pos hs]
          have hstep : stripRight (s :: r') = s :: stripRight r' := by
            rw [stripRight_cons, if_neg hsr']
          have e1 : stripRight (c :: cs) =
              (c :: cs.takeWhile (fun c => !pyIsSpace c)) ++ s :: stripRight r' := by
            rw [hdecomp, hr', stripRight_append, if_neg (by rw [hstep]; simp), hstep]
          have hwordsr' : words r' ≠ [] := by
            intro h0
            apply hsr'
            rw [stripRight_eq_nil]
            exact (words_eq_nil r').mp h0
          have hlen : r'.length ≤ n := by
            have h1 := length_dropWhile (fun c => !pyIsSpace c) cs
            rw [hr'] at h1
            simp at hl h1
            omega
          calc pyCollapse (pyStrip (c :: cs))
              = collapseAux false
                  ((c :: cs.takeWhile (fun c => !pyIsSpace c)) ++ s :: stripRight r') := by
                rw [hstrip, e1]; rfl
            _ = (c :: cs.takeWhile (fun c => !pyIsSpace c)) ++
                  collapseAux false (s :: stripRight r') := collapse_nonws_prefix _ _ hw
            _ = (c :: cs.takeWhile (fun c => !pyIsSpace c)) ++
                  ' ' :: collapseAux true (stripRight r') := by
                rw [collapseAux_cons, if_pos hs, if_neg (by simp)]
            _ = (c :: cs.takeWhile (fun c => !pyIsSpace c)) ++
                  ' ' :: pyCollapse (pyStrip r') := by
                rw [collapseAux_true, dropWS_stripRight]; rfl
            _ = (c :: cs.takeWhile (fun c => !pyIsSpace c)) ++
                  ' ' :: joinWords (words r') := by rw [ih r' hlen]
            _ = joinWords ((c :: cs.takeWhile (fun c => !pyIsSpace c)) ::
                  words (s :: r')) := by
                rw [words_cons_ws r' hs, joinWords_cons, if_neg hwordsr']
            _ = joinWords ((c :: cs.takeWhile (fun c => !pyIsSpace c)) ::
                  words (cs.dropWhile (fun c => !pyIsSpace c))) := by rw [hr']

theorem takeWhile_append_all {α : Type} (p : α → Bool) (a b : List α)
    (ha : ∀ x ∈ a, p x = true) :
    (a ++ b).takeWhile p = a ++ b.takeWhile p := by
  induction a with
  | nil => simp
  | cons c cs ih =>
    rw [List.cons_append, List.takeWhile_cons, if_pos (ha c (by simp)),
      ih fun x hx => ha x (by simp [hx]), List.cons_append]

theorem dropWhile_append_all {α : Type} (p : α → Bool) (a b : List α)
    (ha : ∀ x ∈ a, p x = true) :
    (a ++ b).dropWhile p = b.dropWhile p := by
  induction a with
  | nil => simp
  | cons c cs ih =>
    rw [List.cons_append, List.dropWhile_cons, if_pos (ha c (by simp))]
    exact ih fun x hx => ha x (by simp [hx])

theorem words_nonws (w : List Char) (hne : w ≠ [])
    (hw : ∀ c ∈ w, pyIsSpace c = false) : words w = [w] := by
  match w with
  | c :: cs =>
    rw [words_cons_nonws cs (hw c (by simp))]
    have h1 : cs.takeWhile (fun c => !pyIsSpace c) = cs := by
      have := takeWhile_append_all (fun c => !pyIsSpace c) cs []
        (fun x hx => by simp [hw x (by simp [hx])])
      simpa using this
    have h2 : cs.dropWhile (fun c => !pyIsSpace c) = [] := by
      have := dropWhile_append_all (fun c => !pyIsSpace c) cs []
        (fun x hx => by simp [hw x (by simp [hx])])
      simpa using this
    rw [h1, h2]
    rfl

theorem words_joinWords : ∀ (ws : List (List Char)),
    (∀ w ∈ ws, w ≠ [] ∧ ∀ c ∈ w, pyIsSpace c = false) →
    words (joinWords ws) = ws := by
  intro ws
  induction ws with
  | nil => intro _; rfl
  | cons w ws ih =>
    intro hwf
    obtain ⟨hne, hnw⟩ := hwf w (by simp)
    match ws with
    | [] => exact words_nonws w hne hnw
    | w2 :: ws' =>
      rw [joinWords_cons, if_neg (by simp)]
      match w, hne with
      | c :: cs, _ =>
        rw [List.cons_append,
          words_cons_nonws _ (hnw c (by simp))]
        have hcs : ∀ x ∈ cs, (fun c => !pyIsSpace c) x = true := by
          intro x hx
          simp [hnw x (by simp [hx])]
        rw [takeWhile_append_all _ cs _ hcs, dropWhile_append_all _ cs _ hcs]
        rw [List.takeWhile_cons, if_neg (by decide), List.dropWhile_cons,
          if_neg (by decide), List.append_nil]
        rw [words_cons_ws _ (by decide)]
        exact congrArg _ (ih fun x hx => hwf x (by simp [hx]))

/-! ## Association-list (dict) lemmas -/

theorem jget_jset_self (fs : List (String × JVal)) (k : String) (v : JVal) :
    jget (jset fs k v) k = some v := by
  induction fs with
  | nil => simp [jget, jset]
  | cons kv rest ih =>
    by_cases h : kv.1 = k
    · simp [jget, jset, h]
    · simp [jget, jset, h, ih]

theorem jget_jset_ne (fs : List (String × JVal)) {k k' : String} (v : JVal)
    (h : k' ≠ k) : jget (jset fs k' v) k = jget fs k := by
  induction fs with
  | nil => simp [jget, jset, h]
  | cons kv rest ih =>
    by_cases h2 : kv.1 = k'
    · simp [jget, jset, h2, h]
    · simp only [jset, h2, if_false]
      by_cases h3 : kv.1 = k <;> simp [jget, h3, ih]

theorem jset_self (fs : List (String × JVal)) (k : String) (v : JVal)
    (h : jget fs k = some v) : jset fs k v = fs := by
  induction fs with
  | nil => simp [jget] at h
  | cons kv rest ih =>
    by_cases h2 : kv.1 = k
    · rw [jget] at h
      rw [if_pos h2] at h
      cases h
      cases kv
      simp only at h2
      subst h2
      simp [jset]
    · rw [jget, if_neg h2] at h
      cases kv
      simp only at h2
      simp [jset, h2, ih h]

theorem keys_jset (fs : List (String × JVal)) (k k' : String) (v : JVal)
    (h : k ∈ fs.map Prod.fst) : k ∈ (jset fs k' v).map Prod.fst := by
  induction fs with
  | nil => simp at h
  | cons kv rest ih =>
    obtain ⟨a, b⟩ := kv
    rw [List.map_cons, List.mem_cons] at h
    by_cases h2 : a = k'
    · rw [jset, if_pos h2, List.map_cons, List.mem_cons]
      rcases h with h3 | h3
      · exact Or.inl (h3.trans h2)
      · exact Or.inr h3
    · rw [jset, if_neg h2, List.map_cons, List.mem_cons]
      rcases h with h3 | h3
      · exact Or.inl h3
      · exact Or.inr (ih h3)

/-! ## Decomposing a successful normalizer run -/

theorem except_bind_ok {α β : Type} (m : Except String α)
    (g : α → Except String β) (v : β) :
    (m >>= g) = .ok v ↔ ∃ r, m = .ok r ∧ g r = .ok v := by
  cases m with
  | error msg => simp [Bind.bind, Except.bind]
  | ok r0 => simp [Bind.bind, Except.bind]

theorem postprocess_parts (data out : List (String × JVal))
    (h : postprocess data = .ok out) :
    ∃ nm mi meds ph dxs mi0 med0 dx0,
      null_if_placeholder (jget data "name") = .ok nm ∧
      listField (jget data "mental_illnesses") = .ok mi0 ∧ cleanMI mi0 = .ok mi ∧
      listField (jget data "medications_taken") = .ok med0 ∧
      cleanMeds med0 = .ok meds ∧
      cleanPH (jget data "past_history") = .ok ph ∧
      listField (jget data "diagnoses") = .ok dx0 ∧ cleanDx dx0 = .ok dxs ∧
      out = jset (jset (jset (jset (jset data "name" nm)
              "mental_illnesses" (.arr mi)) "medications_taken" (.arr meds))
              "past_history" (.str ph)) "diagnoses" (.arr dxs) := by
  unfold postprocess at h
  simp only [except_bind_ok, Except.ok.injEq] at h
  obtain ⟨nm, h1, mi0, h2, mi, h3, med0, h4, meds, h5, ph, h6, dx0, h7, dxs, h8, h9⟩ := h
  rw [jget_jset_ne _ _ (by decide)] at h2
  rw [jget_jset_ne _ _ (by decide), jget_jset_ne _ _ (by decide)] at h4
  rw [jget_jset_ne _ _ (by decide), jget_jset_ne _ _ (by decide),
    jget_jset_ne _ _ (by decide)] at h6
  rw [jget_jset_ne _ _ (by decide), jget_jset_ne _ _ (by decide),
    jget_jset_ne _ _ (by decide), jget_jset_ne _ _ (by decide)] at h7
  exact ⟨nm, mi, meds, ph, dxs, mi0, med0, dx0, h1, h2, h3, h4, h5, h6, h7, h8,
    h9.symm⟩

/-! ## The placeholder DFA recognizes exactly the token sequences -/

theorem runP_inUpper_dec : ∀ (ds : List Char), runP .inUpper ds = true →
    ∃ u rest, (∀ c ∈ u, isUpperAZ c = true) ∧ ds = u ++ ']' :: rest ∧
      runP .afterTok rest = true := by
  intro ds
  induction ds with
  | nil => intro h; simp [runP] at h
  | cons d ds' ih =>
    intro h
    rw [runP] at h
    by_cases hup : isUpperAZ d
    · rw [if_pos hup] at h
      obtain ⟨u, rest, hu, hds, hrest⟩ := ih h
      exact ⟨d :: u, rest, by
        intro c hc
        rcases List.mem_cons.mp hc with rfl | hc'
        · exact hup
        · exact hu c hc', by rw [hds]; rfl, hrest⟩
    · rw [if_neg hup] at h
      by_cases hbr : d = ']'
      · rw [if_pos hbr] at h
        exact ⟨[], ds', by simp, by rw [hbr]; rfl, h⟩
      · rw [if_neg hbr] at h
        exact absurd h (by simp)

theorem runP_expectUpper_dec (cs : List Char) (h : runP .expectUpper cs = true) :
    ∃ u rest, u ≠ [] ∧ (∀ c ∈ u, isUpperAZ c = true) ∧
      cs = u ++ ']' :: rest ∧ runP .afterTok rest = true := by
  match cs with
  | [] => simp [runP] at h
  | c :: cs' =>
    rw [runP] at h
    by_cases hup : isUpperAZ c
    · rw [if_pos hup] at h
      obtain ⟨u, rest, hu, hds, hrest⟩ := runP_inUpper_dec cs' h
      exact ⟨c :: u, rest, by simp, by
        intro x hx
        rcases List.mem_cons.mp hx with rfl | hx'
        · exact hup
        · exact hu x hx', by rw [hds]; rfl, hrest⟩
    · rw [if_neg hup] at h
      exact absurd h (by simp)

theorem runP_afterTok_dec : ∀ (rest : List Char), runP .afterTok rest = true →
    ∃ w rest', (∀ c ∈ w, pyIsSpace c = true) ∧ rest = w ++ rest' ∧
      (rest' = [] ∨ ∃ tl, rest' = '[' :: tl ∧ runP .expectUpper tl = true) := by
  intro rest
  induction rest with
  | nil => intro _; exact ⟨[], [], by simp, rfl, Or.inl rfl⟩
  | cons e es ih =>
    intro h
    rw [runP] at h
    by_cases hws : pyIsSpace e
    · rw [if_pos hws] at h
      obtain ⟨w, rest', hw, heq, halt⟩ := ih h
      exact ⟨e :: w, rest', by
        intro c hc
        rcases List.mem_cons.mp hc with rfl | hc'
        · exact hws
        · exact hw c hc', by rw [heq]; rfl, halt⟩
    · rw [if_neg hws] at h
      by_cases hbr : e = '['
      · rw [if_pos hbr] at h
        exact ⟨[], e :: es, by simp, rfl, Or.inr ⟨es, by rw [hbr], h⟩⟩
      · rw [if_neg hbr] at h
        exact absurd h (by simp)

theorem runP_expectOpen_tokSeq : ∀ (n : Nat) (l : List Char), l.length ≤ n →
    runP .expectOpen l = true → TokSeq l := by
  intro n
  induction n with
  | zero =>
    intro l hl h
    have : l = [] := by cases l <;> simp_all
    subst this
    simp [runP] at h
  | succ n ih =>
    intro l hl h
    match l with
    | [] => simp [runP] at h
    | c :: cs =>
      rw [runP] at h
      by_cases hbr : c = '['
      · rw [if_pos hbr] at h
        obtain ⟨u, rest, hune, hu, hcs, hrest⟩ := runP_expectUpper_dec cs h
        obtain ⟨w, rest', hw, heq, halt⟩ := runP_afterTok_dec rest hrest
        have htok : IsBracketTok ('[' :: u ++ [']']) := ⟨u, hune, hu, rfl⟩
        have hl2 : c :: cs = ('[' :: u ++ [']']) ++ w ++ rest' := by
          rw [hbr, hcs, heq]
          simp
        rcases halt with rfl | ⟨tl, rfl, htl⟩
        · rw [hl2]
          have := TokSeq.last ('[' :: u ++ [']']) w htok hw
          simpa using this
        · rw [hl2]
          apply TokSeq.cons _ _ _ htok hw
          apply ih
          · have h1 : (c :: cs).length =
                ('[' :: u ++ [']']).length + w.length + ('[' :: tl).length := by
              rw [hl2]
              simp
              omega
            simp at hl h1 ⊢
            omega
          · rw [runP, if_pos rfl]
            exact htl
      · rw [if_neg hbr] at h
        exact absurd h (by simp)

theorem runP_inUpper_run (u : List Char) (x : List Char)
    (hu : ∀ c ∈ u, isUpperAZ c = true) :
    runP .inUpper (u ++ ']' :: x) = runP .afterTok x := by
  induction u with
  | nil =>
    rw [List.nil_append, runP, if_neg (by decide), if_pos rfl]
  | cons c u' ih =>
    rw [List.cons_append, runP, if_pos (hu c (by simp))]
    exact ih fun c hc => hu c (by simp [hc])

theorem runP_expectUpper_run (u : List Char) (x : List Char) (hne : u ≠ [])
    (hu : ∀ c ∈ u, isUpperAZ c = true) :
    runP .expectUpper (u ++ ']' :: x) = runP .afterTok x := by
  match u, hne with
  | c :: u', _ =>
    rw [List.cons_append, runP, if_pos (hu c (by simp))]
    exact runP_inUpper_run u' x fun c hc => hu c (by simp [hc])

theorem runP_afterTok_ws (w : List Char) (x : List Char)
    (hw : ∀ c ∈ w, pyIsSpace c = true) :
    runP .afterTok (w ++ x) = runP .afterTok x := by
  induction w with
  | nil => rfl
  | cons c w' ih =>
    rw [List.cons_append, runP, if_pos (hw c (by simp))]
    exact ih fun c hc => hw c (by simp [hc])

theorem tokSeq_head (l : List Char) (h : TokSeq l) : ∃ tl, l = '[' :: tl := by
  cases h with
  | last t w ht hw =>
    obtain ⟨u, _, _, rfl⟩ := ht
    exact ⟨u ++ [']'] ++ w, by simp⟩
  | cons t w rest ht hw hrest =>
    obtain ⟨u, _, _, rfl⟩ := ht
    exact ⟨u ++ [']'] ++ w ++ rest, by simp⟩

theorem tokSeq_runP (l : List Char) (h : TokSeq l) :
    runP .expectOpen l = true := by
  induction h with
  | last t w ht hw =>
    obtain ⟨u, hune, hu, rfl⟩ := ht
    have h1 : ('[' :: u ++ [']']) ++ w = '[' :: (u ++ ']' :: w) := by simp
    rw [h1, runP, if_pos rfl, runP_expectUpper_run u w hune hu]
    have h2 := runP_afterTok_ws w [] hw
    simp only [List.append_nil] at h2
    rw [h2]
    rfl
  | cons t w rest ht hw hrest ih =>
    obtain ⟨u, hune, hu, rfl⟩ := ht
    obtain ⟨tl, rfl⟩ := tokSeq_head rest hrest
    have h1 : ('[' :: u ++ [']']) ++ w ++ '[' :: tl =
        '[' :: (u ++ ']' :: (w ++ '[' :: tl)) := by simp
    rw [h1, runP, if_pos rfl, runP_expectUpper_run u _ hune hu,
      runP_afterTok_ws w _ hw, runP, if_neg (by decide), if_pos rfl]
    rw [runP, if_pos rfl] at ih
    exact ih

theorem placeholderMatch_iff (s : List Char) :
    placeholderMatch s = true ↔ SpecRedacted s := by
  unfold placeholderMatch SpecRedacted
  rw [dropWS_pyStrip]
  constructor
  · exact runP_expectOpen_tokSeq (pyStrip s).length (pyStrip s) le_rfl
  · exact tokSeq_runP (pyStrip s)

/-! ## Fence-stripping lemmas -/

theorem dropCh_cons (x c : Char) (l : List Char) :
    dropCh x (c :: l) = if c = x then dropCh x l else c :: l := rfl

theorem pyStrip_cons_ws {c : Char} (l : List Char) (h : pyIsSpace c = true) :
    pyStrip (c :: l) = pyStrip l := by
  unfold pyStrip
  rw [dropWS_cons, if_pos h]

theorem pyStrip_stripRight (l : List Char) : pyStrip (stripRight l) = pyStrip l := by
  unfold pyStrip
  rw [dropWS_stripRight, stripRight_idem]

theorem isPrefixOf_append_self (a b : List Char) :
    a.isPrefixOf (a ++ b) = true := by
  induction a with
  | nil => simp [List.isPrefixOf]
  | cons c cs ih => simp [List.isPrefixOf, ih]

theorem fenceWrap_cons (j : List Char) :
    fenceWrap j = btick :: btick :: btick ::
      ("json".data ++ '\n' :: j ++ '\n' :: fenceMarker) := by
  simp [fenceWrap, fenceMarker]

theorem pyStrip_fenceWrap (j : List Char) : pyStrip (fenceWrap j) = fenceWrap j := by
  have h1 : dropWS (fenceWrap j) = fenceWrap j := by
    rw [fenceWrap_cons, dropWS_cons, if_neg (by decide)]
  have h2 : fenceWrap j =
      (fenceMarker ++ "json".data ++ '\n' :: j ++ ['\n']) ++ fenceMarker := by
    simp [fenceWrap]
  unfold pyStrip
  rw [h1, h2, stripRight_append, if_neg (by decide),
    show stripRight fenceMarker = fenceMarker from by decide]

theorem stripCh_fenceWrap (j : List Char) :
    stripCh btick (fenceWrap j) = "json".data ++ '\n' :: j ++ ['\n'] := by
  have h1 : dropCh btick (fenceWrap j) =
      ("json".data ++ '\n' :: j) ++ ['\n'] ++ fenceMarker := by
    rw [fenceWrap_cons, dropCh_cons, if_pos rfl, dropCh_cons, if_pos rfl,
      dropCh_cons, if_pos rfl, show ("json".data ++ '\n' :: j ++ '\n' :: fenceMarker) =
        'j' :: ("son".data ++ '\n' :: j ++ '\n' :: fenceMarker) from by simp,
      dropCh_cons, if_neg (by decide)]
    simp
  unfold stripCh
  rw [h1]
  rw [List.reverse_append, List.reverse_append,
    show List.reverse fenceMarker = fenceMarker from by decide]
  rw [show (fenceMarker ++ (['\n'].reverse ++ ("json".data ++ '\n' :: j).reverse)) =
    btick :: btick :: btick :: ('\n' :: ("json".data ++ '\n' :: j).reverse) from by
      simp [fenceMarker]]
  rw [dropCh_cons, if_pos rfl, dropCh_cons, if_pos rfl, dropCh_cons, if_pos rfl,
    dropCh_cons, if_neg (by decide)]
  simp

/-- Claim C5: a model reply wrapped in a triple-backtick fence with a leading
`json` language tag comes out of the fence-stripping step as exactly the
stripped unwrapped text, so `json.loads` sees the same input (up to
surrounding whitespace, which `json.loads` ignores) and parses the same
value.  The hypothesis records that the text `j` is JSON text: no JSON value
starts with a backtick, so the stripped `j` never begins with a fence
marker. -/
theorem fence_roundtrip (j : List Char)
    (hj : fenceMarker.isPrefixOf (pyStrip j) = false) :
    fenceStrip (fenceWrap j) = pyStrip j ∧ fenceStrip j = pyStrip j := by
  have part2 : fenceStrip j = pyStrip j := by
    simp [fenceStrip, hj]
  refine ⟨?_, part2⟩
  have hpre : fenceMarker.isPrefixOf (fenceWrap j) = true := by
    rw [show fenceWrap j =
      fenceMarker ++ ("json".data ++ '\n' :: j ++ '\n' :: fenceMarker) from by
        simp [fenceWrap]]
    exact isPrefixOf_append_self _ _
  have e1 : fenceStrip (fenceWrap j) =
      if ("json".data.isPrefixOf
            (pyLower (pyStrip (stripCh btick (fenceWrap j))))) = true then
        pyStrip ((pyStrip (stripCh btick (fenceWrap j))).drop 4)
      else pyStrip (stripCh btick (fenceWrap j)) := by
    simp only [fenceStrip, pyStrip_fenceWrap, hpre, if_true]
  rw [e1, stripCh_fenceWrap]
  have hQj : stripRight (j ++ ['\n']) = stripRight j := by
    rw [stripRight_append, if_pos (by decide)]
  have hP : pyStrip ("json".data ++ '\n' :: j ++ ['\n']) =
      stripRight ("json".data ++ '\n' :: (j ++ ['\n'])) := by
    unfold pyStrip
    rw [show ("json".data ++ '\n' :: j ++ ['\n'] : List Char) =
      'j' :: ("son".data ++ '\n' :: (j ++ ['\n'])) from by simp,
      dropWS_cons, if_neg (by decide)]
    rfl
  by_cases hB : stripRight j = []
  · have hQ : stripRight ('\n' :: (j ++ ['\n'])) = [] := by
      rw [stripRight_cons, hQj, if_pos hB, if_pos (by decide)]
    have hstr : stripRight ("json".data ++ '\n' :: (j ++ ['\n'])) = "json".data := by
      rw [stripRight_append, if_pos hQ]
      decide
    rw [hP, hstr]
    have hjnil : pyStrip j = [] := by
      rw [pyStrip_eq_nil]
      exact (stripRight_eq_nil j).mp hB
    rw [hjnil, if_pos (by decide)]
    decide
  · have hQ : stripRight ('\n' :: (j ++ ['\n'])) = '\n' :: stripRight j := by
      rw [stripRight_cons, hQj, if_neg hB]
    have hstr : stripRight ("json".data ++ '\n' :: (j ++ ['\n'])) =
        "json".data ++ '\n' :: stripRight j := by
      rw [stripRight_append, if_neg (by rw [hQ]; simp), hQ]
    rw [hP, hstr]
    have hlow : pyLower ("json".data ++ '\n' :: stripRight j) =
        "json".data ++ pyLower ('\n' :: stripRight j) := by
      simp only [pyLower, List.map_append]
      rw [show List.map pyToLower "json".data = "json".data from by decide]
    rw [if_pos (by rw [hlow]; exact isPrefixOf_append_self _ _)]
    rw [show (4 : Nat) = ("json".data).length from rfl, List.drop_left]
    rw [pyStrip_cons_ws _ (by decide), pyStrip_stripRight]

/-- Claim C4: an upload whose raw byte payload is empty always produces the
400 empty-upload error, whatever the filename and declared content type are.
The document readers, the inference call, and the JSON parser are universally
quantified and the result does not depend on them, so no text extraction and
no inference call is attempted. -/
theorem empty_upload_400 (readPdf readDocx : List Nat → List Char)
    (infer : List Char → Except (List Char) (List Char))
    (jsonLoads : List Char → Except (List Char) JVal)
    (fname ctype : Option (List Char)) :
    extract_patient_data readPdf readDocx infer jsonLoads fname ctype [] =
      .httpError 400 "Uploaded file is empty.".data := rfl

/-! ## List-level facts about the three entry cleaners -/

theorem cleanMeds_spec : ∀ (ms out : List JVal), cleanMeds ms = .ok out →
    out = ms.filterMap medSpecEntry ∧ ∀ v ∈ out, medWF v = true := by
  intro ms
  induction ms with
  | nil =>
    intro out h
    rw [cleanMeds] at h
    cases h
    exact ⟨rfl, by simp⟩
  | cons m rest ih =>
    intro out h
    match m with
    | .obj fs =>
      rw [cleanMeds] at h
      rcases hv : pyOr (jget fs "name") (.str []) with _ | b | n | s | xs | gs <;>
          simp only [hv] at h
      case str =>
        by_cases hemp : (pyStrip s).isEmpty
        · rw [if_pos hemp] at h
          obtain ⟨h1, h2⟩ := ih out h
          refine ⟨?_, h2⟩
          have hnone : medSpecEntry (.obj fs) = none := by
            simp only [medSpecEntry, hv, if_pos hemp]
          rw [List.filterMap_cons, hnone, h1]
        · rw [if_neg hemp] at h
          rw [except_bind_ok] at h
          obtain ⟨r, hr, hout⟩ := h
          cases hout
          obtain ⟨h1, h2⟩ := ih r hr
          have hsome : medSpecEntry (.obj fs) =
              some (.obj [("name", .str (pyLower (pyStrip s))),
                ("dose", pyOrNull (jget fs "dose")),
                ("route", pyOrNull (jget fs "route")),
                ("frequency", pyOrNull (jget fs "frequency")),
                ("duration", pyOrNull (jget fs "duration")),
                ("reason", pyOrNull (jget fs "reason"))]) := by
            simp only [medSpecEntry, hv, if_neg hemp]
          constructor
          · rw [List.filterMap_cons, hsome, h1]
          · intro v hv2
            rcases List.mem_cons.mp hv2 with rfl | hv3
            · have hne : pyLower (pyStrip s) ≠ [] := by
                intro h0
                rw [pyLower, List.map_eq_nil_iff] at h0
                rw [h0] at hemp
                simp at hemp
              simp [medWF, jget, hne, pyLower_idem]
            · exact h2 v hv3
      all_goals simp at h
    | .null =>
      rw [cleanMeds] at h
      obtain ⟨h1, h2⟩ := ih out h
      exact ⟨by rw [List.filterMap_cons, show medSpecEntry .null = none from rfl, h1],
        h2⟩
      intro fs h0
      simp at h0
    | .bool b =>
      rw [cleanMeds] at h
      obtain ⟨h1, h2⟩ := ih out h
      exact ⟨by rw [List.filterMap_cons, show medSpecEntry (.bool b) = none from rfl,
        h1], h2⟩
      intro fs h0
      simp at h0
    | .num n =>
      rw [cleanMeds] at h
      obtain ⟨h1, h2⟩ := ih out h
      exact ⟨by rw [List.filterMap_cons, show medSpecEntry (.num n) = none from rfl,
        h1], h2⟩
      intro fs h0
      simp at h0
    | .str s =>
      rw [cleanMeds] at h
      obtain ⟨h1, h2⟩ := ih out h
      exact ⟨by rw [List.filterMap_cons, show medSpecEntry (.str s) = none from rfl,
        h1], h2⟩
      intro fs h0
      simp at h0
    | .arr xs =>
      rw [cleanMeds] at h
      obtain ⟨h1, h2⟩ := ih out h
      exact ⟨by rw [List.filterMap_cons, show medSpecEntry (.arr xs) = none from rfl,
        h1], h2⟩
      intro fs h0
      simp at h0

theorem cleanDx_spec : ∀ (ds out : List JVal), cleanDx ds = .ok out →
    out = ds.filterMap dxSpecEntry ∧ ∀ v ∈ out, dxWF v = true := by
  intro ds
  induction ds with
  | nil =>
    intro out h
    rw [cleanDx] at h
    cases h
    exact ⟨rfl, by simp⟩
  | cons m rest ih =>
    intro out h
    match m with
    | .obj fs =>
      rw [cleanDx] at h
      rcases hv : pyOr (jget fs "label") (.str []) with _ | b | n | s | xs | gs <;>
          simp only [hv] at h
      case str =>
        by_cases hemp : (pyStrip s).isEmpty
        · rw [if_pos hemp] at h
          obtain ⟨h1, h2⟩ := ih out h
          refine ⟨?_, h2⟩
          have hnone : dxSpecEntry (.obj fs) = none := by
            simp only [dxSpecEntry, hv, if_pos hemp]
          rw [List.filterMap_cons, hnone, h1]
        · rw [if_neg hemp] at h
          rw [except_bind_ok] at h
          obtain ⟨r, hr, hout⟩ := h
          cases hout
          obtain ⟨h1, h2⟩ := ih r hr
          have hsome : dxSpecEntry (.obj fs) =
              some (.obj [("label", .str (pyTitle (pyStrip s))),
                ("code", pyOrNull (jget fs "code")),
                ("priority", pyOrNull (jget fs "priority"))]) := by
            simp only [dxSpecEntry, hv, if_neg hemp]
          constructor
          · rw [List.filterMap_cons, hsome, h1]
          · intro v hv2
            rcases List.mem_cons.mp hv2 with rfl | hv3
            · have hne : pyTitle (pyStrip s) ≠ [] := by
                rcases hz : pyStrip s with _ | ⟨c, cs⟩
                · rw [hz] at hemp
                  simp at hemp
                · simp [pyTitle]
              have htt : pyTitle (pyTitle (pyStrip s)) = pyTitle (pyStrip s) := by
                rcases hz : pyStrip s with _ | ⟨c, cs⟩
                · rfl
                · simp [pyTitle, pyToUpper_idem]
              simp [dxWF, jget, hne, htt]
            · exact h2 v hv3
      all_goals simp at h
    | .null =>
      rw [cleanDx] at h
      obtain ⟨h1, h2⟩ := ih out h
      exact ⟨by rw [List.filterMap_cons, show dxSpecEntry .null = none from rfl, h1],
        h2⟩
      intro fs h0
      simp at h0
    | .bool b =>
      rw [cleanDx] at h
      obtain ⟨h1, h2⟩ := ih out h
      exact ⟨by rw [List.filterMap_cons, show dxSpecEntry (.bool b) = none from rfl,
        h1], h2⟩
      intro fs h0
      simp at h0
    | .num n =>
      rw [cleanDx] at h
      obtain ⟨h1, h2⟩ := ih out h
      exact ⟨by rw [List.filterMap_cons, show dxSpecEntry (.num n) = none from rfl,
        h1], h2⟩
      intro fs h0
      simp at h0
    | .str s =>
      rw [cleanDx] at h
      obtain ⟨h1, h2⟩ := ih out h
      exact ⟨by rw [List.filterMap_cons, show dxSpecEntry (.str s) = none from rfl,
        h1], h2⟩
      intro fs h0
      simp at h0
    | .arr xs =>
      rw [cleanDx] at h
      obtain ⟨h1, h2⟩ := ih out h
      exact ⟨by rw [List.filterMap_cons, show dxSpecEntry (.arr xs) = none from rfl,
        h1], h2⟩
      intro fs h0
      simp at h0

theorem error_bind {σ τ : Type} (msg : String) (k : σ → Except String τ) :
    ((Except.error msg : Except String σ) >>= k) = .error msg := rfl

theorem cleanMI_cons_str (t : List Char) (rest : List JVal) :
    cleanMI (.str t :: rest) =
      if pyStrNonempty (.str t) then
        (do
          let r ← cleanMI rest
          Except.ok (.str (pyTitle (pyStrip t)) :: r))
      else cleanMI rest := rfl

theorem cleanMI_cons_null (rest : List JVal) :
    cleanMI (.null :: rest) = .error "AttributeError" := rfl

theorem cleanMI_cons_bool (b : Bool) (rest : List JVal) :
    cleanMI (.bool b :: rest) = .error "AttributeError" := rfl

theorem cleanMI_cons_num (n : Int) (rest : List JVal) :
    cleanMI (.num n :: rest) = .error "AttributeError" := rfl

theorem cleanMI_cons_arr (l : List JVal) (rest : List JVal) :
    cleanMI (.arr l :: rest) = .error "AttributeError" := rfl

theorem cleanMI_cons_obj (fs : List (String × JVal)) (rest : List JVal) :
    cleanMI (.obj fs :: rest) = .error "AttributeError" := rfl

theorem cleanMeds_cons_obj (fs : List (String × JVal)) (rest : List JVal) :
    cleanMeds (.obj fs :: rest) =
      (match pyOr (jget fs "name") (.str []) with
       | .str s =>
         if (pyStrip s).isEmpty then cleanMeds rest
         else do
           let r ← cleanMeds rest
           Except.ok (.obj [("name", .str (pyLower (pyStrip s))),
                      ("dose", pyOrNull (jget fs "dose")),
                      ("route", pyOrNull (jget fs "route")),
                      ("frequency", pyOrNull (jget fs "frequency")),
                      ("duration", pyOrNull (jget fs "duration")),
                      ("reason", pyOrNull (jget fs "reason"))] :: r)
       | _ => Except.error "AttributeError") := rfl

theorem cleanMeds_cons_null (rest : List JVal) :
    cleanMeds (.null :: rest) = cleanMeds rest := rfl

theorem cleanMeds_cons_bool (b : Bool) (rest : List JVal) :
    cleanMeds (.bool b :: rest) = cleanMeds rest := rfl

theorem cleanMeds_cons_num (n : Int) (rest : List JVal) :
    cleanMeds (.num n :: rest) = cleanMeds rest := rfl

theorem cleanMeds_cons_str (t : List Char) (rest : List JVal) :
    cleanMeds (.str t :: rest) = cleanMeds rest := rfl

theorem cleanMeds_cons_arr (l : List JVal) (rest : List JVal) :
    cleanMeds (.arr l :: rest) = cleanMeds rest := rfl

theorem cleanDx_cons_obj (fs : List (String × JVal)) (rest : List JVal) :
    cleanDx (.obj fs :: rest) =
      (match pyOr (jget fs "label") (.str []) with
       | .str s =>
         if (pyStrip s).isEmpty then cleanDx rest
         else do
           let r ← cleanDx rest
           Except.ok (.obj [("label", .str (pyTitle (pyStrip s))),
                      ("code", pyOrNull (jget fs "code")),
                      ("priority", pyOrNull (jget fs "priority"))] :: r)
       | _ => Except.error "AttributeError") := rfl

theorem cleanDx_cons_null (rest : List JVal) :
    cleanDx (.null :: rest) = cleanDx rest := rfl

theorem cleanDx_cons_bool (b : Bool) (rest : List JVal) :
    cleanDx (.bool b :: rest) = cleanDx rest := rfl

theorem cleanDx_cons_num (n : Int) (rest : List JVal) :
    cleanDx (.num n :: rest) = cleanDx rest := rfl

theorem cleanDx_cons_str (t : List Char) (rest : List JVal) :
    cleanDx (.str t :: rest) = cleanDx rest := rfl

theorem cleanDx_cons_arr (l : List JVal) (rest : List JVal) :
    cleanDx (.arr l :: rest) = cleanDx rest := rfl

theorem cleanMI_drop_empty (s : List Char) (hs : pyStrip s = []) :
    ∀ (xs ys : List JVal), cleanMI (xs ++ .str s :: ys) = cleanMI (xs ++ ys) := by
  intro xs
  induction xs with
  | nil =>
    intro ys
    rw [List.nil_append, List.nil_append, cleanMI_cons_str,
      if_neg (by simp [pyStrNonempty, hs])]
  | cons x xs ih =>
    intro ys
    rw [List.cons_append, List.cons_append]
    match x with
    | .str t =>
      rw [cleanMI_cons_str, cleanMI_cons_str, ih ys]
    | .null => rw [cleanMI_cons_null, cleanMI_cons_null]
    | .bool b => rw [cleanMI_cons_bool, cleanMI_cons_bool]
    | .num n => rw [cleanMI_cons_num, cleanMI_cons_num]
    | .arr l => rw [cleanMI_cons_arr, cleanMI_cons_arr]
    | .obj fs => rw [cleanMI_cons_obj, cleanMI_cons_obj]

theorem cleanMI_nonstr (v : JVal) (hv : ∀ s, v ≠ .str s) :
    ∀ (xs ys : List JVal), ∃ e, cleanMI (xs ++ v :: ys) = .error e := by
  intro xs
  induction xs with
  | nil =>
    intro ys
    rw [List.nil_append]
    match v, hv with
    | .null, _ => exact ⟨"AttributeError", cleanMI_cons_null ys⟩
    | .bool b, _ => exact ⟨"AttributeError", cleanMI_cons_bool b ys⟩
    | .num n, _ => exact ⟨"AttributeError", cleanMI_cons_num n ys⟩
    | .arr l, _ => exact ⟨"AttributeError", cleanMI_cons_arr l ys⟩
    | .obj fs, _ => exact ⟨"AttributeError", cleanMI_cons_obj fs ys⟩
    | .str t, hv => exact absurd rfl (hv t)
  | cons x xs ih =>
    intro ys
    obtain ⟨e, he⟩ := ih ys
    rw [List.cons_append]
    match x with
    | .str t =>
      rw [cleanMI_cons_str]
      by_cases hx : pyStrNonempty (JVal.str t)
      · rw [if_pos hx, he, error_bind]
        exact ⟨e, rfl⟩
      · rw [if_neg hx]
        exact ⟨e, he⟩
    | .null => exact ⟨"AttributeError", cleanMI_cons_null _⟩
    | .bool b => exact ⟨"AttributeError", cleanMI_cons_bool b _⟩
    | .num n => exact ⟨"AttributeError", cleanMI_cons_num n _⟩
    | .arr l => exact ⟨"AttributeError", cleanMI_cons_arr l _⟩
    | .obj fs => exact ⟨"AttributeError", cleanMI_cons_obj fs _⟩

theorem cleanMeds_nonobj (v : JVal) (hv : ∀ fs, v ≠ .obj fs) :
    ∀ (xs ys : List JVal), cleanMeds (xs ++ v :: ys) = cleanMeds (xs ++ ys) := by
  intro xs
  induction xs with
  | nil =>
    intro ys
    rw [List.nil_append, List.nil_append]
    match v, hv with
    | .null, _ => exact cleanMeds_cons_null ys
    | .bool b, _ => exact cleanMeds_cons_bool b ys
    | .num n, _ => exact cleanMeds_cons_num n ys
    | .str t, _ => exact cleanMeds_cons_str t ys
    | .arr l, _ => exact cleanMeds_cons_arr l ys
    | .obj fs, hv => exact absurd rfl (hv fs)
  | cons x xs ih =>
    intro ys
    rw [List.cons_append, List.cons_append]
    match x with
    | .obj fs =>
      rw [cleanMeds_cons_obj, cleanMeds_cons_obj]
      rcases hp : pyOr (jget fs "name") (.str []) with _ | b | n | s | l | gs <;>
        simp only
      case str =>
        by_cases hemp : (pyStrip s).isEmpty
        · rw [if_pos hemp, if_pos hemp, ih ys]
        · rw [if_neg hemp, if_neg hemp, ih ys]
    | .null => rw [cleanMeds_cons_null, cleanMeds_cons_null, ih ys]
    | .bool b => rw [cleanMeds_cons_bool, cleanMeds_cons_bool, ih ys]
    | .num n => rw [cleanMeds_cons_num, cleanMeds_cons_num, ih ys]
    | .str t => rw [cleanMeds_cons_str, cleanMeds_cons_str, ih ys]
    | .arr l => rw [cleanMeds_cons_arr, cleanMeds_cons_arr, ih ys]

theorem cleanDx_nonobj (v : JVal) (hv : ∀ fs, v ≠ .obj fs) :
    ∀ (xs ys : List JVal), cleanDx (xs ++ v :: ys) = cleanDx (xs ++ ys) := by
  intro xs
  induction xs with
  | nil =>
    intro ys
    rw [List.nil_append, List.nil_append]
    match v, hv with
    | .null, _ => exact cleanDx_cons_null ys
    | .bool b, _ => exact cleanDx_cons_bool b ys
    | .num n, _ => exact cleanDx_cons_num n ys
    | .str t, _ => exact cleanDx_cons_str t ys
    | .arr l, _ => exact cleanDx_cons_arr l ys
    | .obj fs, hv => exact absurd rfl (hv fs)
  | cons x xs ih =>
    intro ys
    rw [List.cons_append, List.cons_append]
    match x with
    | .obj fs =>
      rw [cleanDx_cons_obj, cleanDx_cons_obj]
      rcases hp : pyOr (jget fs "label") (.str []) with _ | b | n | s | l | gs <;>
        simp only
      case str =>
        by_cases hemp : (pyStrip s).isEmpty
        · rw [if_pos hemp, if_pos hemp, ih ys]
        · rw [if_neg hemp, if_neg hemp, ih ys]
    | .null => rw [cleanDx_cons_null, cleanDx_cons_null, ih ys]
    | .bool b => rw [cleanDx_cons_bool, cleanDx_cons_bool, ih ys]
    | .num n => rw [cleanDx_cons_num, cleanDx_cons_num, ih ys]
    | .str t => rw [cleanDx_cons_str, cleanDx_cons_str, ih ys]
    | .arr l => rw [cleanDx_cons_arr, cleanDx_cons_arr, ih ys]

/-- Claim C1, counterexample: a non-string entry in `mental_illnesses` makes
`postprocess` raise.  The comprehension's filter coerces the entry with
`str(x)` (so `5` passes the filter), but the mapped expression calls
`x.strip()` on the original entry, which raises `AttributeError` for a
number. -/
theorem mi_nonstring_raises :
    postprocess [("mental_illnesses", JVal.arr [JVal.num 5])] =
      .error "AttributeError" := rfl

/-- Claim C1, amended: every non-object entry in `medications_taken` and in
`diagnoses` — strings included — is silently dropped wherever it occurs, and
string entries of `mental_illnesses` that are empty after trimming are
silently dropped; but every non-string entry in `mental_illnesses` — objects
included — makes the normalizer raise (`postprocess` fails with an
`AttributeError`, surfaced by the endpoint as a 500), because the
comprehension filters on `str(x).strip()` yet maps `x.strip()`.  Each
conjunct carries only its own shape hypothesis on the entry `v`. -/
theorem malformed_entries (v : JVal) (s : List Char) (xs ys : List JVal)
    (hs : pyStrip s = []) :
    ((∀ fs, v ≠ .obj fs) →
      cleanMeds (xs ++ v :: ys) = cleanMeds (xs ++ ys) ∧
      cleanDx (xs ++ v :: ys) = cleanDx (xs ++ ys)) ∧
    cleanMI (xs ++ .str s :: ys) = cleanMI (xs ++ ys) ∧
    ((∀ t, v ≠ .str t) → ∃ e, cleanMI (xs ++ v :: ys) = .error e) :=
  ⟨fun hobj => ⟨cleanMeds_nonobj v hobj xs ys, cleanDx_nonobj v hobj xs ys⟩,
   cleanMI_drop_empty s hs xs ys,
   fun hstr => cleanMI_nonstr v hstr xs ys⟩

theorem malformed_entries_witness :
    (cleanMeds [JVal.str ['x'], JVal.obj [("name", JVal.str ['a'])]] =
      cleanMeds [JVal.obj [("name", JVal.str ['a'])]] ∧
     cleanDx [JVal.str ['x'], JVal.obj [("name", JVal.str ['a'])]] =
      cleanDx [JVal.obj [("name", JVal.str ['a'])]]) ∧
    cleanMI [JVal.str [' ', '\t'], JVal.str ['a']] = cleanMI [JVal.str ['a']] ∧
    (∃ e, cleanMI [JVal.obj [], JVal.str ['a']] = .error e) :=
  ⟨(malformed_entries (JVal.str ['x']) [' ', '\t'] []
      [JVal.obj [("name", JVal.str ['a'])]] (by decide)).1
      (fun fs h => nomatch h),
   (malformed_entries (JVal.obj []) [' ', '\t'] [] [JVal.str ['a']]
      (by decide)).2.1,
   (malformed_entries (JVal.obj []) [' ', '\t'] [] [JVal.str ['a']]
      (by decide)).2.2 (fun t h => nomatch h)⟩

/-- Claim C3: for a `medications_taken` list in the input mapping, whenever
the normalizer succeeds, the output list is exactly the claim's
entry-by-entry description (`medSpecEntry`): entries whose name is missing
or empty after trimming are dropped, and every kept entry is an object with
exactly the six fields in order, a nonempty lowercased name, and falsy or
absent optional fields replaced by null. -/
theorem meds_normalization (data out : List (String × JVal)) (ms : List JVal)
    (h : postprocess data = .ok out)
    (hm : jget data "medications_taken" = some (.arr ms)) :
    ∃ outms, jget out "medications_taken" = some (.arr outms) ∧
      outms = ms.filterMap medSpecEntry ∧ ∀ v ∈ outms, medWF v = true := by
  obtain ⟨nm, mi, meds, ph, dxs, mi0, med0, dx0, pN, pM, pA, pB, pC, pD, pE, pF, pG⟩ :=
    postprocess_parts data out h
  have hms : med0 = ms := by
    rw [hm] at pB
    rcases ms with _ | ⟨m, ms'⟩ <;>
      simp [listField, pyOr, pyTruthy, pyIter] at pB <;>
      first
        | exact pB
        | exact pB.symm
  subst hms
  have hout : jget out "medications_taken" = some (.arr meds) := by
    rw [pG, jget_jset_ne _ _ (by decide), jget_jset_ne _ _ (by decide),
      jget_jset_self]
  obtain ⟨hfm, hwf⟩ := cleanMeds_spec med0 meds pC
  exact ⟨meds, hout, hfm, hwf⟩

theorem meds_normalization_witness :
    ∃ outms,
      jget [("medications_taken", JVal.arr
              [JVal.obj [("name", JVal.str "sertraline".data),
                ("dose", JVal.str "50 mg".data), ("route", JVal.null),
                ("frequency", JVal.null), ("duration", JVal.null),
                ("reason", JVal.null)]]),
            ("name", JVal.null), ("mental_illnesses", JVal.arr []),
            ("past_history", JVal.str []), ("diagnoses", JVal.arr [])]
          "medications_taken" = some (.arr outms) ∧
      outms = [JVal.obj [("name", JVal.str "Sertraline".data),
                ("dose", JVal.str "50 mg".data)],
               JVal.obj [("dose", JVal.str "10".data)],
               JVal.str ['x']].filterMap medSpecEntry ∧
      ∀ v ∈ outms, medWF v = true :=
  meds_normalization
    [("medications_taken", JVal.arr
      [JVal.obj [("name", JVal.str "Sertraline".data),
        ("dose", JVal.str "50 mg".data)],
       JVal.obj [("dose", JVal.str "10".data)],
       JVal.str ['x']])] _ _ rfl rfl

/-- Claim C8, counterexample: a falsy `priority` value is not passed through.
The entry `label: "x", priority: ""` keeps a priority value outside
high/medium/low (the empty string), yet normalizes to `priority: null`
because of the `or None` defaulting. -/
theorem dx_priority_falsy :
    postprocess [("diagnoses", JVal.arr [JVal.obj [("label", JVal.str ['x']),
        ("priority", JVal.str [])]])] =
      .ok [("diagnoses", JVal.arr [JVal.obj [("label", JVal.str ['X']),
            ("code", JVal.null), ("priority", JVal.null)]]),
          ("name", JVal.null), ("mental_illnesses", JVal.arr []),
          ("medications_taken", JVal.arr []), ("past_history", JVal.str [])] ∧
    JVal.null ≠ JVal.str [] :=
  ⟨rfl, fun h => nomatch h⟩

/-- Claim C8, amended: for a `diagnoses` list in the input mapping, whenever
the normalizer succeeds, the output list is exactly the claim's
entry-by-entry description (`dxSpecEntry`): entries whose label is missing
or empty after trimming are dropped, and every kept entry is an object with
exactly the fields label, code, priority in order, the label's first
character uppercased and the rest unchanged; a *truthy* code or priority
value is passed through unvalidated, while falsy or absent ones (including
the empty string) become null. -/
theorem dx_normalization (data out : List (String × JVal)) (ds : List JVal)
    (h : postprocess data = .ok out)
    (hd : jget data "diagnoses" = some (.arr ds)) :
    ∃ outds, jget out "diagnoses" = some (.arr outds) ∧
      outds = ds.filterMap dxSpecEntry ∧ ∀ v ∈ outds, dxWF v = true := by
  obtain ⟨nm, mi, meds, ph, dxs, mi0, med0, dx0, pN, pM, pA, pB, pC, pD, pE, pF, pG⟩ :=
    postprocess_parts data out h
  have hds : dx0 = ds := by
    rw [hd] at pE
    rcases ds with _ | ⟨d, ds'⟩ <;>
      simp [listField, pyOr, pyTruthy, pyIter] at pE <;>
      first
        | exact pE
        | exact pE.symm
  subst hds
  have hout : jget out "diagnoses" = some (.arr dxs) := by
    rw [pG, jget_jset_self]
  obtain ⟨hfm, hwf⟩ := cleanDx_spec dx0 dxs pF
  exact ⟨dxs, hout, hfm, hwf⟩

theorem dx_normalization_witness :
    ∃ outds,
      jget [("diagnoses", JVal.arr
              [JVal.obj [("label", JVal.str "Depression".data),
                ("code", JVal.str "F32.1".data), ("priority", JVal.null)],
               JVal.obj [("label", JVal.str ['X']), ("code", JVal.null),
                ("priority", JVal.str "urgent".data)]]),
            ("name", JVal.null), ("mental_illnesses", JVal.arr []),
            ("medications_taken", JVal.arr []), ("past_history", JVal.str [])]
          "diagnoses" = some (.arr outds) ∧
      outds = [JVal.obj [("label", JVal.str "depression".data),
                ("code", JVal.str "F32.1".data)],
               JVal.obj [("label", JVal.str ['x']),
                ("priority", JVal.str "urgent".data)],
               JVal.obj [("code", JVal.str "Z00".data)]].filterMap dxSpecEntry ∧
      ∀ v ∈ outds, dxWF v = true :=
  dx_normalization
    [("diagnoses", JVal.arr
      [JVal.obj [("label", JVal.str "depression".data),
        ("code", JVal.str "F32.1".data)],
       JVal.obj [("label", JVal.str ['x']),
        ("priority", JVal.str "urgent".data)],
       JVal.obj [("code", JVal.str "Z00".data)]])] _ _ rfl rfl

/-- Claim C10, counterexample: the normalizer is not idempotent.  A name
consisting of a single space is truthy and not a placeholder, so the first
pass stores the stripped value `""`; on the second pass `""` is falsy and
becomes null, so running `postprocess` on its own output changes the
record. -/
theorem postprocess_not_idempotent :
    postprocess [("name", JVal.str [' '])] =
      .ok [("name", JVal.str []), ("mental_illnesses", JVal.arr []),
          ("medications_taken", JVal.arr []), ("past_history", JVal.str []),
          ("diagnoses", JVal.arr [])] ∧
    postprocess [("name", JVal.str []), ("mental_illnesses", JVal.arr []),
        ("medications_taken", JVal.arr []), ("past_history", JVal.str []),
        ("diagnoses", JVal.arr [])] ≠
      .ok [("name", JVal.str []), ("mental_illnesses", JVal.arr []),
          ("medications_taken", JVal.arr []), ("past_history", JVal.str []),
          ("diagnoses", JVal.arr [])] := by
  refine ⟨rfl, ?_⟩
  intro h
  rw [show postprocess [("name", JVal.str []), ("mental_illnesses", JVal.arr []),
      ("medications_taken", JVal.arr []), ("past_history", JVal.str []),
      ("diagnoses", JVal.arr [])] =
    .ok [("name", JVal.null), ("mental_illnesses", JVal.arr []),
      ("medications_taken", JVal.arr []), ("past_history", JVal.str []),
      ("diagnoses", JVal.arr [])] from rfl] at h
  simp at h

/-! ## UTF-8 roundtrip -/

theorem char_ofNat_toNat (c : Char) : Char.ofNat c.toNat = c :=
  char_eq_of_toNat (char_toNat_ofNat _ c.valid)

theorem decodeLoop_cons (st : UState) (b : Nat) (rest : List Nat) :
    decodeLoop st (b :: rest) =
      match utf8Trans st b with
      | (some c, st2) => c :: decodeLoop st2 rest
      | (none, st2) => decodeLoop st2 rest := rfl

theorem decodeLoop_cons_emit {st : UState} {b : Nat} (rest : List Nat)
    {c : Char} {st2 : UState} (h : utf8Trans st b = (some c, st2)) :
    decodeLoop st (b :: rest) = c :: decodeLoop st2 rest := by
  rw [decodeLoop_cons, h]

theorem decodeLoop_cons_skip {st : UState} {b : Nat} (rest : List Nat)
    {st2 : UState} (h : utf8Trans st b = (none, st2)) :
    decodeLoop st (b :: rest) = decodeLoop st2 rest := by
  rw [decodeLoop_cons, h]

theorem decode_encodeChar (c : Char) (rest : List Nat) :
    decodeLoop .start (encodeChar c ++ rest) = c :: decodeLoop .start rest := by
  have hv : c.toNat < 55296 ∨ (57343 < c.toNat ∧ c.toNat < 1114112) := c.valid
  by_cases h1 : c.toNat < 128
  · have he : encodeChar c = [c.toNat] := by
      simp [encodeChar, h1]
    rw [he, List.singleton_append,
      decodeLoop_cons_emit rest (show utf8Trans .start c.toNat =
        (some (Char.ofNat c.toNat), .start) by
          simp only [utf8Trans, startTrans]
          rw [if_pos h1]), char_ofNat_toNat]
  · by_cases h2 : c.toNat < 2048
    · have he : encodeChar c = [192 + c.toNat / 64, 128 + c.toNat % 64] := by
        simp only [encodeChar]
        rw [if_neg h1, if_pos h2]
      have e1 : utf8Trans .start (192 + c.toNat / 64) =
          (none, .need 1 (192 + c.toNat / 64 - 192) 128 191) := by
        simp only [utf8Trans, startTrans]
        have ha : ¬ 192 + c.toNat / 64 < 128 := by omega
        have hb : ¬ 192 + c.toNat / 64 < 194 := by omega
        have hc : 192 + c.toNat / 64 < 224 := by omega
        rw [if_neg ha, if_neg hb, if_pos hc]
      have e2 : utf8Trans (.need 1 (192 + c.toNat / 64 - 192) 128 191)
          (128 + c.toNat % 64) =
          (some (Char.ofNat ((192 + c.toNat / 64 - 192) * 64 +
            (128 + c.toNat % 64 - 128))), .start) := by
        simp only [utf8Trans]
        rw [if_pos (by constructor <;> omega), if_pos trivial]
      rw [he, show ([192 + c.toNat / 64, 128 + c.toNat % 64] : List Nat) ++ rest =
        (192 + c.toNat / 64) :: (128 + c.toNat % 64) :: rest from rfl,
        decodeLoop_cons_skip _ e1, decodeLoop_cons_emit _ e2,
        show (192 + c.toNat / 64 - 192) * 64 + (128 + c.toNat % 64 - 128) =
          c.toNat from by omega, char_ofNat_toNat]
    · by_cases h3 : c.toNat < 65536
      · have he : encodeChar c = [224 + c.toNat / 4096,
            128 + c.toNat / 64 % 64, 128 + c.toNat % 64] := by
          simp only [encodeChar]
          rw [if_neg h1, if_neg h2, if_pos h3]
        obtain ⟨lo, hi, e1, hr⟩ : ∃ lo hi,
            utf8Trans .start (224 + c.toNat / 4096) =
              (none, .need 2 (c.toNat / 4096) lo hi) ∧
            (lo ≤ 128 + c.toNat / 64 % 64 ∧ 128 + c.toNat / 64 % 64 ≤ hi) := by
          by_cases hA : c.toNat < 4096
          · refine ⟨160, 191, ?_, by constructor <;> omega⟩
            simp only [utf8Trans, startTrans]
            have ha : ¬ 224 + c.toNat / 4096 < 128 := by omega
            have hb : ¬ 224 + c.toNat / 4096 < 194 := by omega
            have hc : ¬ 224 + c.toNat / 4096 < 224 := by omega
            have hd : 224 + c.toNat / 4096 = 224 := by omega
            rw [if_neg ha, if_neg hb, if_neg hc, if_pos hd]
            have hz : c.toNat / 4096 = 0 := by omega
            rw [hz]
          · by_cases hB : 53248 ≤ c.toNat ∧ c.toNat < 57344
            · refine ⟨128, 159, ?_, by constructor <;> omega⟩
              simp only [utf8Trans, startTrans]
              have ha : ¬ 224 + c.toNat / 4096 < 128 := by omega
              have hb : ¬ 224 + c.toNat / 4096 < 194 := by omega
              have hc : ¬ 224 + c.toNat / 4096 < 224 := by omega
              have hd : ¬ 224 + c.toNat / 4096 = 224 := by omega
              have he : 224 + c.toNat / 4096 = 237 := by omega
              rw [if_neg ha, if_neg hb, if_neg hc, if_neg hd, if_pos he]
              have hz : c.toNat / 4096 = 13 := by omega
              rw [hz]
            · refine ⟨128, 191, ?_, by constructor <;> omega⟩
              simp only [utf8Trans, startTrans]
              have ha : ¬ 224 + c.toNat / 4096 < 128 := by omega
              have hb : ¬ 224 + c.toNat / 4096 < 194 := by omega
              have hc : ¬ 224 + c.toNat / 4096 < 224 := by omega
              have hd : ¬ 224 + c.toNat / 4096 = 224 := by omega
              have he : ¬ 224 + c.toNat / 4096 = 237 := by omega
              have hf : 224 + c.toNat / 4096 < 240 := by omega
              rw [if_neg ha, if_neg hb, if_neg hc, if_neg hd, if_neg he, if_pos hf]
              have hz : 224 + c.toNat / 4096 - 224 = c.toNat / 4096 := by omega
              rw [hz]
        have e2 : utf8Trans (.need 2 (c.toNat / 4096) lo hi)
            (128 + c.toNat / 64 % 64) =
            (none, .need 1 (c.toNat / 4096 * 64 +
              (128 + c.toNat / 64 % 64 - 128)) 128 191) := by
          simp only [utf8Trans]
          rw [if_pos hr, if_neg (by omega)]
        have e3 : utf8Trans (.need 1 (c.toNat / 4096 * 64 +
            (128 + c.toNat / 64 % 64 - 128)) 128 191) (128 + c.toNat % 64) =
            (some (Char.ofNat ((c.toNat / 4096 * 64 +
              (128 + c.toNat / 64 % 64 - 128)) * 64 +
              (128 + c.toNat % 64 - 128))), .start) := by
          simp only [utf8Trans]
          rw [if_pos (by constructor <;> omega), if_pos trivial]
        rw [he, show ([224 + c.toNat / 4096, 128 + c.toNat / 64 % 64,
            128 + c.toNat % 64] : List Nat) ++ rest =
          (224 + c.toNat / 4096) :: (128 + c.toNat / 64 % 64) ::
            (128 + c.toNat % 64) :: rest from rfl,
          decodeLoop_cons_skip _ e1, decodeLoop_cons_skip _ e2,
          decodeLoop_cons_emit _ e3,
          show (c.toNat / 4096 * 64 + (128 + c.toNat / 64 % 64 - 128)) * 64 +
            (128 + c.toNat % 64 - 128) = c.toNat from by omega, char_ofNat_toNat]
      · have he : encodeChar c = [240 + c.toNat / 262144,
            128 + c.toNat / 4096 % 64, 128 + c.toNat / 64 % 64,
            128 + c.toNat % 64] := by
          simp only [encodeChar]
          rw [if_neg h1, if_neg h2, if_neg h3]
        have hub : c.toNat < 1114112 := by omega
        obtain ⟨lo, hi, e1, hr⟩ : ∃ lo hi,
            utf8Trans .start (240 + c.toNat / 262144) =
              (none, .need 3 (c.toNat / 262144) lo hi) ∧
            (lo ≤ 128 + c.toNat / 4096 % 64 ∧ 128 + c.toNat / 4096 % 64 ≤ hi) := by
          by_cases hA : c.toNat < 262144
          · refine ⟨144, 191, ?_, by constructor <;> omega⟩
            simp only [utf8Trans, startTrans]
            have ha : ¬ 240 + c.toNat / 262144 < 128 := by omega
            have hb : ¬ 240 + c.toNat / 262144 < 194 := by omega
            have hc : ¬ 240 + c.toNat / 262144 < 224 := by omega
            have hd : ¬ 240 + c.toNat / 262144 = 224 := by omega
            have he : ¬ 240 + c.toNat / 262144 = 237 := by omega
            have hf : ¬ 240 + c.toNat / 262144 < 240 := by omega
            have hg : 240 + c.toNat / 262144 = 240 := by omega
            rw [if_neg ha, if_neg hb, if_neg hc, if_neg hd, if_neg he, if_neg hf,
              if_pos hg]
            have hz : c.toNat / 262144 = 0 := by omega
            rw [hz]
          · by_cases hB : c.toNat < 1048576
            · refine ⟨128, 191, ?_, by constructor <;> omega⟩
              simp only [utf8Trans, startTrans]
              have ha : ¬ 240 + c.toNat / 262144 < 128 := by omega
              have hb : ¬ 240 + c.toNat / 262144 < 194 := by omega
              have hc : ¬ 240 + c.toNat / 262144 < 224 := by omega
              have hd : ¬ 240 + c.toNat / 262144 = 224 := by omega
              have he : ¬ 240 + c.toNat / 262144 = 237 := by omega
              have hf : ¬ 240 + c.toNat / 262144 < 240 := by omega
              have hg : ¬ 240 + c.toNat / 262144 = 240 := by omega
              have hh : 240 + c.toNat / 262144 < 244 := by omega
              rw [if_neg ha, if_neg hb, if_neg hc, if_neg hd, if_neg he, if_neg hf,
                if_neg hg, if_pos hh]
              have hz : 240 + c.toNat / 262144 - 240 = c.toNat / 262144 := by omega
              rw [hz]
            · refine ⟨128, 143, ?_, by constructor <;> omega⟩
              simp only [utf8Trans, startTrans]
              have ha : ¬ 240 + c.toNat / 262144 < 128 := by omega
              have hb : ¬ 240 + c.toNat / 262144 < 194 := by omega
              have hc : ¬ 240 + c.toNat / 262144 < 224 := by omega
              have hd : ¬ 240 + c.toNat / 262144 = 224 := by omega
              have he : ¬ 240 + c.toNat / 262144 = 237 := by omega
              have hf : ¬ 240 + c.toNat / 262144 < 240 := by omega
              have hg : ¬ 240 + c.toNat / 262144 = 240 := by omega
              have hh : ¬ 240 + c.toNat / 262144 < 244 := by omega
              have hj : 240 + c.toNat / 262144 = 244 := by omega
              rw [if_neg ha, if_neg hb, if_neg hc, if_neg hd, if_neg he, if_neg hf,
                if_neg hg, if_neg hh, if_pos hj]
              have hz : c.toNat / 262144 = 4 := by omega
              rw [hz]
        have e2 : utf8Trans (.need 3 (c.toNat / 262144) lo hi)
            (128 + c.toNat / 4096 % 64) =
            (none, .need 2 (c.toNat / 262144 * 64 +
              (128 + c.toNat / 4096 % 64 - 128)) 128 191) := by
          simp only [utf8Trans]
          rw [if_pos hr, if_neg (by omega)]
        have e3 : utf8Trans (.need 2 (c.toNat / 262144 * 64 +
            (128 + c.toNat / 4096 % 64 - 128)) 128 191)
            (128 + c.toNat / 64 % 64) =
            (none, .need 1 ((c.toNat / 262144 * 64 +
              (128 + c.toNat / 4096 % 64 - 128)) * 64 +
              (128 + c.toNat / 64 % 64 - 128)) 128 191) := by
          simp only [utf8Trans]
          rw [if_pos (by constructor <;> omega), if_neg (by omega)]
        have e4 : utf8Trans (.need 1 ((c.toNat / 262144 * 64 +
            (128 + c.toNat / 4096 % 64 - 128)) * 64 +
            (128 + c.toNat / 64 % 64 - 128)) 128 191) (128 + c.toNat % 64) =
            (some (Char.ofNat (((c.toNat / 262144 * 64 +
              (128 + c.toNat / 4096 % 64 - 128)) * 64 +
              (128 + c.toNat / 64 % 64 - 128)) * 64 +
              (128 + c.toNat % 64 - 128))), .start) := by
          simp only [utf8Trans]
          rw [if_pos (by constructor <;> omega), if_pos trivial]
        rw [he, show ([240 + c.toNat / 262144, 128 + c.toNat / 4096 % 64,
            128 + c.toNat / 64 % 64, 128 + c.toNat % 64] : List Nat) ++ rest =
          (240 + c.toNat / 262144) :: (128 + c.toNat / 4096 % 64) ::
            (128 + c.toNat / 64 % 64) :: (128 + c.toNat % 64) :: rest from rfl,
          decodeLoop_cons_skip _ e1, decodeLoop_cons_skip _ e2,
          decodeLoop_cons_skip _ e3, decodeLoop_cons_emit _ e4,
          show ((c.toNat / 262144 * 64 + (128 + c.toNat / 4096 % 64 - 128)) * 64 +
            (128 + c.toNat / 64 % 64 - 128)) * 64 + (128 + c.toNat % 64 - 128) =
            c.toNat from by omega, char_ofNat_toNat]

theorem utf8_roundtrip (l : List Char) : decodeIgnore (utf8Encode l) = l := by
  induction l with
  | nil => rfl
  | cons c cs ih =>
    have h1 : utf8Encode (c :: cs) = encodeChar c ++ utf8Encode cs := by
      simp [utf8Encode]
    unfold decodeIgnore at ih ⊢
    rw [h1, decode_encodeChar, ih]

/-- Claim C7: when the lowercased filename ends in neither `.pdf` nor
`.docx` and the lowercased content type contains neither `"pdf"` nor the
word-processing XML format name, the extractor returns the payload decoded
as UTF-8 with undecodable bytes ignored — and therefore returns any
valid-UTF-8 content unchanged.  The PDF and DOCX readers are universally
quantified: the text path never consults them. -/
theorem txt_extraction (readPdf readDocx : List Nat → List Char)
    (fname ctype : Option (List Char))
    (h1 : endsW (pyLower (orEmpty fname)) ".pdf".data = false)
    (h2 : containsSub "pdf".data (pyLower (orEmpty ctype)) = false)
    (h3 : endsW (pyLower (orEmpty fname)) ".docx".data = false)
    (h4 : containsSub "officedocument.wordprocessingml.document".data
        (pyLower (orEmpty ctype)) = false) :
    (∀ raw, extract_text_from_upload readPdf readDocx fname ctype raw =
      decodeIgnore raw) ∧
    (∀ l : List Char,
      extract_text_from_upload readPdf readDocx fname ctype (utf8Encode l) = l) := by
  have hbase : ∀ raw, extract_text_from_upload readPdf readDocx fname ctype raw =
      decodeIgnore raw := by
    intro raw
    simp [extract_text_from_upload, h1, h2, h3, h4, read_txt]
  refine ⟨hbase, fun l => ?_⟩
  rw [hbase, utf8_roundtrip]

theorem txt_extraction_witness :
    extract_text_from_upload (fun _ => []) (fun _ => [])
      (some "note.txt".data) (some "text/plain".data)
      (utf8Encode "hello".data) = "hello".data :=
  (txt_extraction (fun _ => []) (fun _ => []) (some "note.txt".data)
    (some "text/plain".data) (by decide) (by decide) (by decide)
    (by decide)).2 "hello".data

theorem fence_roundtrip_witness :
    fenceStrip (fenceWrap "[1, 2]".data) = pyStrip "[1, 2]".data ∧
    fenceStrip "[1, 2]".data = pyStrip "[1, 2]".data :=
  fence_roundtrip "[1, 2]".data (by decide)

theorem null_if_placeholder_str (s : List Char) :
    null_if_placeholder (some (.str s)) =
      if pyTruthy (.str s) then
        (if placeholderMatch s then Except.ok .null
         else Except.ok (.str (pyStrip s)))
      else Except.ok .null := rfl

/-- Claim C2: for every input mapping whose name is a string, the normalized
name is null exactly when the name is redacted in the claim's sense
(`SpecRedacted`: after trimming, one or more bracketed all-uppercase tokens
optionally separated by whitespace); any other non-empty name string comes
out trimmed and otherwise unchanged. -/
theorem name_normalization (data out : List (String × JVal)) (s : List Char)
    (h : postprocess data = .ok out)
    (hn : jget data "name" = some (.str s)) :
    (SpecRedacted s → jget out "name" = some .null) ∧
    (¬SpecRedacted s → s ≠ [] → jget out "name" = some (.str (pyStrip s))) := by
  obtain ⟨nm, mi, meds, ph, dxs, mi0, med0, dx0, h1, _, _, _, _, _, _, _, h9⟩ :=
    postprocess_parts data out h
  have hout : jget out "name" = some nm := by
    rw [h9, jget_jset_ne _ _ (by decide), jget_jset_ne _ _ (by decide),
      jget_jset_ne _ _ (by decide), jget_jset_ne _ _ (by decide), jget_jset_self]
  rw [hn, null_if_placeholder_str] at h1
  constructor
  · intro hred
    have hm : placeholderMatch s = true := (placeholderMatch_iff s).mpr hred
    have hnm : nm = .null := by
      by_cases ht : pyTruthy (.str s)
      · rw [if_pos ht, if_pos hm] at h1
        exact (Except.ok.inj h1).symm
      · rw [if_neg ht] at h1
        exact (Except.ok.inj h1).symm
    rw [hout, hnm]
  · intro hnred hne
    have hm : placeholderMatch s = false := by
      cases hb : placeholderMatch s
      · rfl
      · exact absurd ((placeholderMatch_iff s).mp hb) hnred
    have ht : pyTruthy (.str s) = true := by simp [pyTruthy, hne]
    rw [if_pos ht, if_neg (by simp [hm])] at h1
    rw [hout, ← Except.ok.inj h1]

theorem name_normalization_witness :
    jget [("name", JVal.null), ("mental_illnesses", JVal.arr []),
        ("medications_taken", JVal.arr []), ("past_history", JVal.str []),
        ("diagnoses", JVal.arr [])] "name" = some JVal.null ∧
    jget [("name", JVal.str "Jane Doe".data), ("mental_illnesses", JVal.arr []),
        ("medications_taken", JVal.arr []), ("past_history", JVal.str []),
        ("diagnoses", JVal.arr [])] "name" = some (JVal.str "Jane Doe".data) :=
  ⟨(name_normalization [("name", JVal.str " [PATIENT] [NAME] ".data)] _
      " [PATIENT] [NAME] ".data rfl rfl).1
      ((placeholderMatch_iff _).mp (by decide)),
   (name_normalization [("name", JVal.str "  Jane Doe ".data)] _
      "  Jane Doe ".data rfl rfl).2
      (fun hr => absurd ((placeholderMatch_iff _).mpr hr) (by decide))
      (by decide)⟩

theorem cleanPH_str (s : List Char) :
    cleanPH (some (.str s)) = .ok (pyCollapse (pyStrip s)) := by
  rcases s with _ | ⟨c, cs⟩ <;> rfl

theorem cleanPH_none : cleanPH none = .ok [] := rfl

theorem cleanPH_null : cleanPH (some .null) = .ok [] := rfl

/-- Claim C6: the normalized past_history of a string input is the input
with leading/trailing whitespace removed and every internal whitespace run
replaced by a single space — stated via the specification-side reading
`joinWords (words s)` (the whitespace-separated words joined by single
spaces); a missing or null past_history normalizes to the empty string. -/
theorem past_history_normalization (data out : List (String × JVal))
    (h : postprocess data = .ok out) :
    (∀ s, jget data "past_history" = some (.str s) →
      jget out "past_history" = some (.str (joinWords (words s)))) ∧
    ((jget data "past_history" = none ∨ jget data "past_history" = some .null) →
      jget out "past_history" = some (.str [])) := by
  obtain ⟨nm, mi, meds, ph, dxs, mi0, med0, dx0, _, _, _, _, _, h6, _, _, h9⟩ :=
    postprocess_parts data out h
  have hout : jget out "past_history" = some (.str ph) := by
    rw [h9, jget_jset_ne _ _ (by decide), jget_jset_self]
  constructor
  · intro s hs
    rw [hs, cleanPH_str] at h6
    rw [hout, ← Except.ok.inj h6, collapse_strip_words s.length s le_rfl]
  · intro hcase
    rcases hcase with hc | hc <;> rw [hc] at h6
    · rw [cleanPH_none] at h6
      rw [hout, ← Except.ok.inj h6]
    · rw [cleanPH_null] at h6
      rw [hout, ← Except.ok.inj h6]

theorem past_history_normalization_witness :
    jget [("past_history", JVal.str ['a', ' ', 'b', ' ', 'c']),
        ("name", JVal.null), ("mental_illnesses", JVal.arr []),
        ("medications_taken", JVal.arr []), ("diagnoses", JVal.arr [])]
      "past_history" = some (JVal.str ['a', ' ', 'b', ' ', 'c']) ∧
    jget [("age", JVal.num 30), ("name", JVal.null),
        ("mental_illnesses", JVal.arr []), ("medications_taken", JVal.arr []),
        ("past_history", JVal.str []), ("diagnoses", JVal.arr [])]
      "past_history" = some (JVal.str []) :=
  ⟨(past_history_normalization [("past_history", JVal.str "  a   b\tc ".data)] _
      rfl).1 "  a   b\tc ".data rfl,
   (past_history_normalization [("age", JVal.num 30)] _ rfl).2 (Or.inl rfl)⟩

/-- Claim C9: the normalizer touches only the five normalized fields.  The
age field and every other key of the input mapping keep their values
unchanged in the output, and every input key is still present. -/
theorem frame_preservation (data out : List (String × JVal))
    (h : postprocess data = .ok out) :
    (∀ k : String, ¬(k = "name" ∨ k = "mental_illnesses" ∨
        k = "medications_taken" ∨ k = "past_history" ∨ k = "diagnoses") →
      jget out k = jget data k) ∧
    (∀ k : String, k ∈ data.map Prod.fst → k ∈ out.map Prod.fst) ∧
    jget out "age" = jget data "age" := by
  obtain ⟨nm, mi, meds, ph, dxs, mi0, med0, dx0, _, _, _, _, _, _, _, _, h9⟩ :=
    postprocess_parts data out h
  have hframe : ∀ k : String, ¬(k = "name" ∨ k = "mental_illnesses" ∨
      k = "medications_taken" ∨ k = "past_history" ∨ k = "diagnoses") →
      jget out k = jget data k := by
    intro k hk
    push_neg at hk
    obtain ⟨k1, k2, k3, k4, k5⟩ := hk
    rw [h9, jget_jset_ne _ _ (Ne.symm k5), jget_jset_ne _ _ (Ne.symm k4),
      jget_jset_ne _ _ (Ne.symm k3), jget_jset_ne _ _ (Ne.symm k2),
      jget_jset_ne _ _ (Ne.symm k1)]
  refine ⟨hframe, ?_, hframe "age" (by decide)⟩
  intro k hk
  rw [h9]
  exact keys_jset _ _ _ _ (keys_jset _ _ _ _ (keys_jset _ _ _ _
    (keys_jset _ _ _ _ (keys_jset _ _ _ _ hk))))

theorem frame_preservation_witness :
    jget [("age", JVal.num 30), ("extra", JVal.bool true), ("name", JVal.null),
        ("mental_illnesses", JVal.arr []), ("medications_taken", JVal.arr []),
        ("past_history", JVal.str []), ("diagnoses", JVal.arr [])] "extra" =
      jget [("age", JVal.num 30), ("extra", JVal.bool true)] "extra" ∧
    "extra" ∈ ([("age", JVal.num 30), ("extra", JVal.bool true), ("name", JVal.null),
        ("mental_illnesses", JVal.arr []), ("medications_taken", JVal.arr []),
        ("past_history", JVal.str []),
        ("diagnoses", JVal.arr [])].map Prod.fst) ∧
    jget [("age", JVal.num 30), ("extra", JVal.bool true), ("name", JVal.null),
        ("mental_illnesses", JVal.arr []), ("medications_taken", JVal.arr []),
        ("past_history", JVal.str []), ("diagnoses", JVal.arr [])] "age" =
      jget [("age", JVal.num 30), ("extra", JVal.bool true)] "age" :=
  ⟨(frame_preservation [("age", JVal.num 30), ("extra", JVal.bool true)] _ rfl).1
      "extra" (by decide),
   (frame_preservation [("age", JVal.num 30), ("extra", JVal.bool true)] _ rfl).2.1
      "extra" (by decide),
   (frame_preservation [("age", JVal.num 30), ("extra", JVal.bool true)] _ rfl).2.2⟩

/-! ## Stability lemmas for the idempotence theorem -/

theorem ok_bind {σ τ : Type} (u : σ) (k : σ → Except String τ) :
    ((Except.ok u : Except String σ) >>= k) = k u := rfl

theorem dropWS_length_le (l : List Char) : (dropWS l).length ≤ l.length := by
  induction l with
  | nil => simp
  | cons c cs ih =>
    rw [dropWS_cons]
    split
    · exact Nat.le_trans ih (by simp)
    · simp

theorem pyStrip_length_le (l : List Char) : (pyStrip l).length ≤ l.length := by
  unfold pyStrip stripRight
  calc ((dropWS (dropWS l).reverse).reverse).length
      = (dropWS (dropWS l).reverse).length := by rw [List.length_reverse]
    _ ≤ (dropWS l).reverse.length := dropWS_length_le _
    _ = (dropWS l).length := by rw [List.length_reverse]
    _ ≤ l.length := dropWS_length_le l

theorem pyStrip_head_nonws (c : Char) (cs : List Char)
    (h : pyStrip (c :: cs) = c :: cs) : pyIsSpace c = false := by
  cases hb : pyIsSpace c
  · rfl
  · exfalso
    rw [pyStrip_cons_ws cs hb] at h
    have h1 := pyStrip_length_le cs
    rw [h] at h1
    simp at h1

theorem pyTitle_pyTitle (u : List Char) : pyTitle (pyTitle u) = pyTitle u := by
  cases u with
  | nil => rfl
  | cons c cs => simp [pyTitle, pyToUpper_idem]

theorem pyTitle_ne_nil (u : List Char) (h : u ≠ []) : pyTitle u ≠ [] := by
  cases u with
  | nil => exact absurd rfl h
  | cons c cs => simp [pyTitle]

theorem pyStrip_pyTitle (u : List Char) (hu : pyStrip u = u) :
    pyStrip (pyTitle u) = pyTitle u := by
  cases u with
  | nil => rfl
  | cons c cs =>
    have hc : pyIsSpace c = false := pyStrip_head_nonws c cs hu
    have hc2 : pyIsSpace (pyToUpper c) = false := by
      rw [pyIsSpace_pyToUpper, hc]
    have hu2 : stripRight (c :: cs) = c :: cs := by
      have : pyStrip (c :: cs) = stripRight (c :: cs) := by
        unfold pyStrip
        rw [dropWS_cons, if_neg (by simp [hc])]
      rw [← this, hu]
    have hstep : pyStrip (pyTitle (c :: cs)) = stripRight (pyToUpper c :: cs) := by
      unfold pyStrip
      rw [show pyTitle (c :: cs) = pyToUpper c :: cs from rfl, dropWS_cons,
        if_neg (by simp [hc2])]
    rw [hstep, show pyTitle (c :: cs) = pyToUpper c :: cs from rfl]
    rw [stripRight_cons] at hu2 ⊢
    by_cases hnil : stripRight cs = []
    · rw [if_pos hnil] at hu2 ⊢
      rw [if_neg (by simp [hc])] at hu2
      rw [if_neg (by simp [hc2])]
      have : cs = [] := by
        have := hu2.symm
        rw [List.cons_eq_cons] at this
        exact this.2
      rw [this]
    · rw [if_neg hnil] at hu2 ⊢
      have : stripRight cs = cs := by
        have := hu2
        rw [List.cons_eq_cons] at this
        exact this.2
      rw [this]

theorem pyIsSpace_map_stable (f : Char → Char)
    (hf : ∀ c, pyIsSpace (f c) = pyIsSpace c) :
    ∀ l : List Char, dropWS (l.map f) = (dropWS l).map f := by
  intro l
  induction l with
  | nil => rfl
  | cons c cs ih =>
    rw [List.map_cons, dropWS_cons, dropWS_cons, hf c]
    split
    · exact ih
    · rw [List.map_cons]

theorem stripRight_map_stable (f : Char → Char)
    (hf : ∀ c, pyIsSpace (f c) = pyIsSpace c) :
    ∀ l : List Char, stripRight (l.map f) = (stripRight l).map f := by
  intro l
  unfold stripRight
  rw [← List.map_reverse, pyIsSpace_map_stable f hf, List.map_reverse]

theorem pyStrip_map_stable (f : Char → Char)
    (hf : ∀ c, pyIsSpace (f c) = pyIsSpace c) :
    ∀ l : List Char, pyStrip (l.map f) = (pyStrip l).map f := by
  intro l
  unfold pyStrip
  rw [pyIsSpace_map_stable f hf, stripRight_map_stable f hf]

theorem pyStrip_pyLower (u : List Char) (hu : pyStrip u = u) :
    pyStrip (pyLower u) = pyLower u := by
  unfold pyLower
  rw [pyStrip_map_stable pyToLower pyIsSpace_pyToLower, hu]

theorem pyLower_ne_nil (u : List Char) (h : u ≠ []) : pyLower u ≠ [] := by
  intro h0
  rw [pyLower, List.map_eq_nil_iff] at h0
  exact h h0

theorem pyOrNull_some_stable (v : JVal) (h : v = .null ∨ pyTruthy v = true) :
    pyOrNull (some v) = v := by
  rcases h with rfl | h
  · rfl
  · simp [pyOrNull, h]

theorem pyOrNull_optval (v : Option JVal) :
    pyOrNull v = .null ∨ pyTruthy (pyOrNull v) = true := by
  match v with
  | none => exact Or.inl rfl
  | some x =>
    by_cases hx : pyTruthy x
    · right
      simp [pyOrNull, hx]
    · left
      simp [pyOrNull, hx]

theorem listField_arr (xs : List JVal) : listField (some (.arr xs)) = .ok xs := by
  cases xs <;> rfl

theorem ph_stable (l : List Char) :
    pyCollapse (pyStrip (joinWords (words l))) = joinWords (words l) := by
  rw [collapse_strip_words (joinWords (words l)).length _ le_rfl,
    words_joinWords _ (words_wf l.length l le_rfl)]

theorem cleanPH_some (w : JVal) :
    cleanPH (some w) =
      match pyOr (some w) (.str []) with
      | .str s => Except.ok (pyCollapse (pyStrip s))
      | _ => Except.error "AttributeError" := rfl

theorem cleanPH_ok_form (v : Option JVal) (ph : List Char)
    (h : cleanPH v = .ok ph) : ∃ l, ph = joinWords (words l) := by
  match v with
  | none =>
    refine ⟨[], ?_⟩
    rw [cleanPH_none] at h
    exact (Except.ok.inj h).symm
  | some w =>
    match w with
    | .str s =>
      rw [cleanPH_str] at h
      refine ⟨s, ?_⟩
      rw [← Except.ok.inj h, collapse_strip_words s.length s le_rfl]
    | .null =>
      refine ⟨[], ?_⟩
      rw [cleanPH_null] at h
      exact (Except.ok.inj h).symm
    | .bool b =>
      cases b
      · exact ⟨[], (Except.ok.inj h).symm⟩
      · exact absurd h (by simp [cleanPH_some, pyOr, pyTruthy])
    | .num n =>
      by_cases hn : n = 0
      · subst hn
        exact ⟨[], (Except.ok.inj h).symm⟩
      · exact absurd h (by simp [cleanPH_some, pyOr, pyTruthy, hn])
    | .arr xs =>
      cases xs
      · exact ⟨[], (Except.ok.inj h).symm⟩
      · exact absurd h (by simp [cleanPH_some, pyOr, pyTruthy])
    | .obj fs =>
      cases fs
      · exact ⟨[], (Except.ok.inj h).symm⟩
      · exact absurd h (by simp [cleanPH_some, pyOr, pyTruthy])

theorem null_if_placeholder_some (w : JVal) :
    null_if_placeholder (some w) =
      if pyTruthy w then
        (match w with
         | .str s => if placeholderMatch s then Except.ok .null
                     else Except.ok (.str (pyStrip s))
         | _ => Except.error "AttributeError")
      else Except.ok .null := rfl

theorem null_if_placeholder_ok (v : Option JVal) (nm : JVal)
    (h : null_if_placeholder v = .ok nm) :
    nm = .null ∨ ∃ s, v = some (.str s) ∧ nm = .str (pyStrip s) ∧ s ≠ [] ∧
      placeholderMatch s = false := by
  match v with
  | none => exact Or.inl (Except.ok.inj h).symm
  | some w =>
    match w with
    | .str s =>
      rw [null_if_placeholder_str] at h
      by_cases ht : pyTruthy (.str s)
      · rw [if_pos ht] at h
        by_cases hm : placeholderMatch s
        · rw [if_pos hm] at h
          exact Or.inl (Except.ok.inj h).symm
        · rw [if_neg hm] at h
          refine Or.inr ⟨s, rfl, (Except.ok.inj h).symm, ?_, by simpa using hm⟩
          intro h0
          rw [h0] at ht
          simp [pyTruthy] at ht
      · rw [if_neg ht] at h
        exact Or.inl (Except.ok.inj h).symm
    | .null => exact Or.inl (Except.ok.inj h).symm
    | .bool b =>
      cases b
      · exact Or.inl (Except.ok.inj h).symm
      · exact absurd h (by simp [null_if_placeholder_some, pyTruthy])
    | .num n =>
      by_cases hn : n = 0
      · subst hn
        exact Or.inl (Except.ok.inj h).symm
      · exact absurd h (by simp [null_if_placeholder_some, pyTruthy, hn])
    | .arr xs =>
      cases xs
      · exact Or.inl (Except.ok.inj h).symm
      · exact absurd h (by simp [null_if_placeholder_some, pyTruthy])
    | .obj fs =>
      cases fs
      · exact Or.inl (Except.ok.inj h).symm
      · exact absurd h (by simp [null_if_placeholder_some, pyTruthy])

theorem cleanMI_elems : ∀ (xs ys : List JVal), cleanMI xs = .ok ys →
    ∀ y ∈ ys, ∃ u, y = .str (pyTitle u) ∧ pyStrip u = u ∧ u ≠ [] := by
  intro xs
  induction xs with
  | nil =>
    intro ys h
    rw [cleanMI] at h
    cases h
    simp
  | cons x xs ih =>
    intro ys h
    match x with
    | .str s =>
      rw [cleanMI_cons_str] at h
      by_cases hx : pyStrNonempty (JVal.str s)
      · rw [if_pos hx, except_bind_ok] at h
        obtain ⟨r, hr, hcons⟩ := h
        cases hcons
        intro y hy
        rcases List.mem_cons.mp hy with rfl | hy'
        · refine ⟨pyStrip s, rfl, pyStrip_idem s, ?_⟩
          intro h0
          rw [pyStrNonempty, h0] at hx
          simp at hx
        · exact ih r hr y hy'
      · rw [if_neg hx] at h
        exact ih ys h
    | .null => exact absurd (cleanMI_cons_null xs ▸ h) (by simp)
    | .bool b => exact absurd (cleanMI_cons_bool b xs ▸ h) (by simp)
    | .num n => exact absurd (cleanMI_cons_num n xs ▸ h) (by simp)
    | .arr l => exact absurd (cleanMI_cons_arr l xs ▸ h) (by simp)
    | .obj fs => exact absurd (cleanMI_cons_obj fs xs ▸ h) (by simp)

theorem cleanMI_stable : ∀ (ys : List JVal),
    (∀ y ∈ ys, ∃ u, y = .str (pyTitle u) ∧ pyStrip u = u ∧ u ≠ []) →
    cleanMI ys = .ok ys := by
  intro ys
  induction ys with
  | nil => intro _; rfl
  | cons y ys ih =>
    intro hys
    obtain ⟨u, rfl, hu, hne⟩ := hys y (by simp)
    have hst : pyStrip (pyTitle u) = pyTitle u := pyStrip_pyTitle u hu
    have htne : pyTitle u ≠ [] := pyTitle_ne_nil u hne
    rw [cleanMI_cons_str, if_pos (by simp [pyStrNonempty, hst, htne]),
      ih fun z hz => hys z (by simp [hz]), ok_bind, hst, pyTitle_pyTitle]

theorem cleanMeds_elems : ∀ (xs ys : List JVal), cleanMeds xs = .ok ys →
    ∀ y ∈ ys, ∃ u dv rv fv duv rev,
      y = .obj [("name", .str (pyLower u)), ("dose", dv), ("route", rv),
        ("frequency", fv), ("duration", duv), ("reason", rev)] ∧
      pyStrip u = u ∧ u ≠ [] ∧
      (dv = .null ∨ pyTruthy dv = true) ∧ (rv = .null ∨ pyTruthy rv = true) ∧
      (fv = .null ∨ pyTruthy fv = true) ∧ (duv = .null ∨ pyTruthy duv = true) ∧
      (rev = .null ∨ pyTruthy rev = true) := by
  intro xs
  induction xs with
  | nil =>
    intro ys h
    rw [cleanMeds] at h
    cases h
    simp
  | cons x xs ih =>
    intro ys h
    match x with
    | .obj fs =>
      rw [cleanMeds_cons_obj] at h
      rcases hv : pyOr (jget fs "name") (.str []) with _ | b | n | s | l | gs <;>
        simp only [hv] at h
      case str =>
        by_cases hemp : (pyStrip s).isEmpty
        · rw [if_pos hemp] at h
          exact ih ys h
        · rw [if_neg hemp, except_bind_ok] at h
          obtain ⟨r, hr, hcons⟩ := h
          cases hcons
          intro y hy
          rcases List.mem_cons.mp hy with rfl | hy'
          · exact ⟨pyStrip s, _, _, _, _, _, rfl, pyStrip_idem s,
              by simpa using hemp, pyOrNull_optval _, pyOrNull_optval _,
              pyOrNull_optval _, pyOrNull_optval _, pyOrNull_optval _⟩
          · exact ih r hr y hy'
      all_goals simp at h
    | .null => exact ih ys (cleanMeds_cons_null xs ▸ h)
    | .bool b => exact ih ys (cleanMeds_cons_bool b xs ▸ h)
    | .num n => exact ih ys (cleanMeds_cons_num n xs ▸ h)
    | .str t => exact ih ys (cleanMeds_cons_str t xs ▸ h)
    | .arr l => exact ih ys (cleanMeds_cons_arr l xs ▸ h)

theorem cleanMeds_stable : ∀ (ys : List JVal),
    (∀ y ∈ ys, ∃ u dv rv fv duv rev,
      y = .obj [("name", .str (pyLower u)), ("dose", dv), ("route", rv),
        ("frequency", fv), ("duration", duv), ("reason", rev)] ∧
      pyStrip u = u ∧ u ≠ [] ∧
      (dv = .null ∨ pyTruthy dv = true) ∧ (rv = .null ∨ pyTruthy rv = true) ∧
      (fv = .null ∨ pyTruthy fv = true) ∧ (duv = .null ∨ pyTruthy duv = true) ∧
      (rev = .null ∨ pyTruthy rev = true)) →
    cleanMeds ys = .ok ys := by
  intro ys
  induction ys with
  | nil => intro _; rfl
  | cons y ys ih =>
    intro hys
    obtain ⟨u, dv, rv, fv, duv, rev, rfl, hu, hne, hdv, hrv, hfv, hduv, hrev⟩ :=
      hys y (by simp)
    have hlne : pyLower u ≠ [] := pyLower_ne_nil u hne
    have hlst : pyStrip (pyLower u) = pyLower u := pyStrip_pyLower u hu
    have hget : pyOr (jget [("name", JVal.str (pyLower u)), ("dose", dv),
        ("route", rv), ("frequency", fv), ("duration", duv), ("reason", rev)]
        "name") (.str []) = JVal.str (pyLower u) := by
      simp [jget, pyOr, pyTruthy, hlne]
    rw [cleanMeds_cons_obj]
    simp only [hget]
    rw [if_neg (by simp [hlst, hlne]),
      ih fun z hz => hys z (by simp [hz]), ok_bind]
    rw [hlst, pyLower_idem]
    rw [show jget [("name", JVal.str (pyLower u)), ("dose", dv), ("route", rv),
        ("frequency", fv), ("duration", duv), ("reason", rev)] "dose" =
      some dv from by simp [jget]]
    rw [show jget [("name", JVal.str (pyLower u)), ("dose", dv), ("route", rv),
        ("frequency", fv), ("duration", duv), ("reason", rev)] "route" =
      some rv from by simp [jget]]
    rw [show jget [("name", JVal.str (pyLower u)), ("dose", dv), ("route", rv),
        ("frequency", fv), ("duration", duv), ("reason", rev)] "frequency" =
      some fv from by simp [jget]]
    rw [show jget [("name", JVal.str (pyLower u)), ("dose", dv), ("route", rv),
        ("frequency", fv), ("duration", duv), ("reason", rev)] "duration" =
      some duv from by simp [jget]]
    rw [show jget [("name", JVal.str (pyLower u)), ("dose", dv), ("route", rv),
        ("frequency", fv), ("duration", duv), ("reason", rev)] "reason" =
      some rev from by simp [jget]]
    rw [pyOrNull_some_stable dv hdv, pyOrNull_some_stable rv hrv,
      pyOrNull_some_stable fv hfv, pyOrNull_some_stable duv hduv,
      pyOrNull_some_stable rev hrev]

theorem cleanDx_elems : ∀ (xs ys : List JVal), cleanDx xs = .ok ys →
    ∀ y ∈ ys, ∃ u cv pv,
      y = .obj [("label", .str (pyTitle u)), ("code", cv), ("priority", pv)] ∧
      pyStrip u = u ∧ u ≠ [] ∧
      (cv = .null ∨ pyTruthy cv = true) ∧ (pv = .null ∨ pyTruthy pv = true) := by
  intro xs
  induction xs with
  | nil =>
    intro ys h
    rw [cleanDx] at h
    cases h
    simp
  | cons x xs ih =>
    intro ys h
    match x with
    | .obj fs =>
      rw [cleanDx_cons_obj] at h
      rcases hv : pyOr (jget fs "label") (.str []) with _ | b | n | s | l | gs <;>
        simp only [hv] at h
      case str =>
        by_cases hemp : (pyStrip s).isEmpty
        · rw [if_pos hemp] at h
          exact ih ys h
        · rw [if_neg hemp, except_bind_ok] at h
          obtain ⟨r, hr, hcons⟩ := h
          cases hcons
          intro y hy
          rcases List.mem_cons.mp hy with rfl | hy'
          · exact ⟨pyStrip s, _, _, rfl, pyStrip_idem s, by simpa using hemp,
              pyOrNull_optval _, pyOrNull_optval _⟩
          · exact ih r hr y hy'
      all_goals simp at h
    | .null => exact ih ys (cleanDx_cons_null xs ▸ h)
    | .bool b => exact ih ys (cleanDx_cons_bool b xs ▸ h)
    | .num n => exact ih ys (cleanDx_cons_num n xs ▸ h)
    | .str t => exact ih ys (cleanDx_cons_str t xs ▸ h)
    | .arr l => exact ih ys (cleanDx_cons_arr l xs ▸ h)

theorem cleanDx_stable : ∀ (ys : List JVal),
    (∀ y ∈ ys, ∃ u cv pv,
      y = .obj [("label", .str (pyTitle u)), ("code", cv), ("priority", pv)] ∧
      pyStrip u = u ∧ u ≠ [] ∧
      (cv = .null ∨ pyTruthy cv = true) ∧ (pv = .null ∨ pyTruthy pv = true)) →
    cleanDx ys = .ok ys := by
  intro ys
  induction ys with
  | nil => intro _; rfl
  | cons y ys ih =>
    intro hys
    obtain ⟨u, cv, pv, rfl, hu, hne, hcv, hpv⟩ := hys y (by simp)
    have htne : pyTitle u ≠ [] := pyTitle_ne_nil u hne
    have htst : pyStrip (pyTitle u) = pyTitle u := pyStrip_pyTitle u hu
    have hget : pyOr (jget [("label", JVal.str (pyTitle u)), ("code", cv),
        ("priority", pv)] "label") (.str []) = JVal.str (pyTitle u) := by
      simp [jget, pyOr, pyTruthy, htne]
    rw [cleanDx_cons_obj]
    simp only [hget]
    rw [if_neg (by simp [htst, htne]),
      ih fun z hz => hys z (by simp [hz]), ok_bind]
    rw [htst, pyTitle_pyTitle]
    rw [show jget [("label", JVal.str (pyTitle u)), ("code", cv),
        ("priority", pv)] "code" = some cv from by simp [jget]]
    rw [show jget [("label", JVal.str (pyTitle u)), ("code", cv),
        ("priority", pv)] "priority" = some pv from by simp [jget]]
    rw [pyOrNull_some_stable cv hcv, pyOrNull_some_stable pv hpv]

/-- Claim C10, amended: the normalizer is idempotent on every successfully
normalized input whose name value is not a truthy whitespace-only string.
(That one family of inputs is the only source of non-idempotence: such a
name normalizes to `""` on the first pass and to null on the second.)  All
other normalization steps — trimming, first-letter uppercasing, lowercasing,
whitespace collapsing, placeholder nulling, truthy-or-null defaulting — are
fixed points on already-normalized records. -/
theorem postprocess_idempotent (data out : List (String × JVal))
    (h : postprocess data = .ok out)
    (hname : ∀ s, jget data "name" = some (.str s) → s ≠ [] → pyStrip s ≠ []) :
    postprocess out = .ok out := by
  obtain ⟨nm, mi, meds, ph, dxs, mi0, med0, dx0, pN, pM, pA, pB, pC, pD, pE, pF, pG⟩ :=
    postprocess_parts data out h
  have hg_nm : jget out "name" = some nm := by
    rw [pG, jget_jset_ne _ _ (by decide), jget_jset_ne _ _ (by decide),
      jget_jset_ne _ _ (by decide), jget_jset_ne _ _ (by decide), jget_jset_self]
  have hg_mi : jget out "mental_illnesses" = some (.arr mi) := by
    rw [pG, jget_jset_ne _ _ (by decide), jget_jset_ne _ _ (by decide),
      jget_jset_ne _ _ (by decide), jget_jset_self]
  have hg_md : jget out "medications_taken" = some (.arr meds) := by
    rw [pG, jget_jset_ne _ _ (by decide), jget_jset_ne _ _ (by decide),
      jget_jset_self]
  have hg_ph : jget out "past_history" = some (.str ph) := by
    rw [pG, jget_jset_ne _ _ (by decide), jget_jset_self]
  have hg_dx : jget out "diagnoses" = some (.arr dxs) := by
    rw [pG, jget_jset_self]
  have hnm2 : null_if_placeholder (some nm) = .ok nm := by
    rcases null_if_placeholder_ok _ _ pN with rfl | ⟨s, hv, rfl, hsne, hm⟩
    · rfl
    · have hst : pyStrip s ≠ [] := hname s hv hsne
      have hmm : placeholderMatch (pyStrip s) = placeholderMatch s := by
        unfold placeholderMatch
        rw [pyStrip_idem]
      rw [null_if_placeholder_str, if_pos (by simp [pyTruthy, hst]),
        if_neg (by simp [hmm, hm]), pyStrip_idem]
  have hmi2 : cleanMI mi = .ok mi := cleanMI_stable mi (cleanMI_elems mi0 mi pA)
  have hmd2 : cleanMeds meds = .ok meds :=
    cleanMeds_stable meds (cleanMeds_elems med0 meds pC)
  have hdx2 : cleanDx dxs = .ok dxs := cleanDx_stable dxs (cleanDx_elems dx0 dxs pF)
  have hph2 : cleanPH (some (.str ph)) = .ok ph := by
    obtain ⟨l, rfl⟩ := cleanPH_ok_form _ _ pD
    rw [cleanPH_str, ph_stable]
  have hs_nm : jset out "name" nm = out := jset_self _ _ _ hg_nm
  have hs_mi : jset out "mental_illnesses" (.arr mi) = out := jset_self _ _ _ hg_mi
  have hs_md : jset out "medications_taken" (.arr meds) = out :=
    jset_self _ _ _ hg_md
  have hs_ph : jset out "past_history" (.str ph) = out := jset_self _ _ _ hg_ph
  have hs_dx : jset out "diagnoses" (.arr dxs) = out := jset_self _ _ _ hg_dx
  simp only [postprocess, hg_nm, hnm2, ok_bind, hs_nm, hg_mi, listField_arr,
    hmi2, hs_mi, hg_md, hmd2, hs_md, hg_ph, hph2, hs_ph, hg_dx, hdx2, hs_dx]

theorem postprocess_idempotent_witness :
    postprocess [("name", JVal.str "Jane Doe".data),
        ("mental_illnesses", JVal.arr [JVal.str "Anxiety".data]),
        ("medications_taken", JVal.arr []), ("past_history", JVal.str "a b".data),
        ("diagnoses", JVal.arr [])] =
      .ok [("name", JVal.str "Jane Doe".data),
        ("mental_illnesses", JVal.arr [JVal.str "Anxiety".data]),
        ("medications_taken", JVal.arr []), ("past_history", JVal.str "a b".data),
        ("diagnoses", JVal.arr [])] :=
  postprocess_idempotent
    [("name", JVal.str " Jane Doe ".data),
      ("mental_illnesses", JVal.arr [JVal.str "anxiety".data]),
      ("medications_taken", JVal.arr []),
      ("past_history", JVal.str " a  b ".data), ("diagnoses", JVal.arr [])] _
    rfl
    (fun s hs hne => by
      have hs2 : s = " Jane Doe ".data := by
        have := Option.some.inj hs
        exact (JVal.str.inj this).symm
      rw [hs2]
      decide)
